import Mathlib

/-!
Verification of the calypso-slurm-scheduler orchestration code.

The Python sources are shallowly embedded: file contents become lists of
lines (each line a `List Char`, without its terminating newline), the
filesystem and scheduler environment become explicit parameters, and the
stateful loops become folds over explicit state records.  Every definition
mirrors one function of the repository; the doc comment of each definition
names the source location it embeds.
-/

namespace CalVaspML

/-- Shorthand turning a string literal into the `List Char` the model works on. -/
def chars (s : String) : List Char := s.data

instance {e a : Type} [DecidableEq e] [DecidableEq a] : DecidableEq (Except e a) := fun x y =>
  match x, y with
  | .ok u, .ok v =>
    if h : u = v then isTrue (by rw [h]) else isFalse (fun he => by cases he; exact h rfl)
  | .error u, .error v =>
    if h : u = v then isTrue (by rw [h]) else isFalse (fun he => by cases he; exact h rfl)
  | .ok _, .error _ => isFalse (fun he => by cases he)
  | .error _, .ok _ => isFalse (fun he => by cases he)

/-- Python's `\s` character class (ASCII range), as used by `re` in `incar.py`
and by `str.strip` / `str.split`. -/
def isWs : Char → Bool
  | ' ' | '\t' | '\n' | '\r' | '\x0b' | '\x0c' => true
  | _ => false

/-- The two line-comment markers of the INCAR format (`[#!]` in `incar.py`). -/
def isCommentChar : Char → Bool
  | '#' | '!' => true
  | _ => false

/-- Python `str.strip()` on a list of characters. -/
def stripChars (l : List Char) : List Char :=
  ((l.dropWhile isWs).reverse.dropWhile isWs).reverse

/-- Drops the exact character sequence `k` from the front of `l`, mirroring a
regex engine matching the `re.escape`d tag literally. -/
def dropExact : List Char → List Char → Option (List Char)
  | [], l => some l
  | _, [] => none
  | k :: ks, c :: cs => if c = k then dropExact ks cs else none

/-- Matches `^\s*TAG\s*=` (the common core of the `get`, `set` and `delete`
patterns of `incar.py`) against one line, returning the remainder of the line
after the `=` sign.  Faithful to the regexes for tags that are non-empty and
contain no whitespace (the hypotheses used by all theorems below). -/
def matchKeyEq (key l : List Char) : Option (List Char) :=
  match dropExact key (l.dropWhile isWs) with
  | none => none
  | some r =>
    match r.dropWhile isWs with
    | '=' :: rest => some rest
    | _ => none

/-- Whether a line is an assignment of `key`: exactly the lines rewritten by
`IncarFile.set` (pattern `^(\s*)(tag)\s*=\s*([^#!]*)([#!].*)?$`, which matches
any line of the form `\s*tag\s*=...`) and removed by `IncarFile.delete`
(pattern `^\s*tag\s*=`). -/
def assigns (key l : List Char) : Bool :=
  (matchKeyEq key l).isSome

/-- The value text captured by `IncarFile.get`'s group `([^#!]+)` on one line
(`incar.py` line 34).  The real file iteration hands the regex the line with
its terminating newline, so a line whose `=` is directly followed by a comment
marker yields no match, while an empty value matches via the newline.  Leading
whitespace may be retained here; `_parse_value` strips it. -/
def getLineValue (key l : List Char) : Option (List Char) :=
  match matchKeyEq key l with
  | none => none
  | some rest =>
    match rest with
    | [] => some []
    | c :: _ =>
      if isCommentChar c then none
      else some (rest.takeWhile (fun d => !isCommentChar d))

/-- Drops one optional leading sign, as in the `[+-]?` prefix of the numeric
regexes of `IncarFile._parse_value`. -/
def dropSign : List Char → List Char
  | [] => []
  | c :: rest => if c = '+' || c = '-' then rest else c :: rest

/-- A non-empty run of decimal digits (`\d+`). -/
def allDigits1 (l : List Char) : Bool :=
  !l.isEmpty && l.all Char.isDigit

/-- Full match of the integer regex `[+-]?\d+` (`incar.py` line 25). -/
def isIntLit (l : List Char) : Bool :=
  allDigits1 (dropSign l)

/-- Full match of `\d+\.\d*|\.\d+`, the mantissa-with-point alternatives of the
float regex (`incar.py` lines 27-28). -/
def fracLit (l : List Char) : Bool :=
  match l.dropWhile Char.isDigit with
  | '.' :: tail =>
    if (l.takeWhile Char.isDigit).isEmpty then allDigits1 tail else tail.all Char.isDigit
  | _ => false

/-- An exponent marker. -/
def isExpChar : Char → Bool
  | 'e' | 'E' => true
  | _ => false

/-- Full match of the float regexes of `IncarFile._parse_value`
(`[+-]?(\d+\.\d*|\.\d+)([eE][+-]?\d+)?` or `[+-]?\d+[eE][+-]?\d+`). -/
def isFloatLit (l : List Char) : Bool :=
  let m := dropSign l
  let mant := m.takeWhile (fun c => !isExpChar c)
  match m.dropWhile (fun c => !isExpChar c) with
  | [] => fracLit mant
  | _ :: expTail => (fracLit mant || allDigits1 mant) && allDigits1 (dropSign expTail)

/-- Decimal value of a digit string, as computed by Python `int` on the digits
matched by the integer regex. -/
def natOfChars (l : List Char) : Nat :=
  l.foldl (fun a c => 10 * a + (c.toNat - '0'.toNat)) 0

/-- Python `int()` applied to a string matching `[+-]?\d+`. -/
def intOfChars (l : List Char) : Int :=
  match l with
  | [] => 0
  | c :: rest =>
    if c = '-' then -(natOfChars rest : Int)
    else if c = '+' then (natOfChars rest : Int)
    else (natOfChars (c :: rest) : Int)

/-- The result type of `IncarFile.get` / `IncarFile._parse_value`:
`bool | int | float | str`.  A float is kept as the exact literal the file
contained — `_parse_value` hands it to Python `float()`, whose IEEE-754 value
this development does not model (no theorem below depends on it). -/
inductive IncarValue where
  | bool (b : Bool)
  | int (n : Int)
  | float (lit : List Char)
  | str (s : List Char)
deriving DecidableEq, Repr

/-- `IncarFile._parse_value` (`incar.py` lines 20-30): strip, then the
declared precedence boolean → integer → float → fallback string. -/
def parseValue (raw : List Char) : IncarValue :=
  let v := stripChars raw
  let up := v.map Char.toUpper
  if up = chars ".TRUE." then .bool true
  else if up = chars ".FALSE." then .bool false
  else if isIntLit v then .int (intOfChars v)
  else if isFloatLit v then .float v
  else .str v

/-- `IncarFile.get` (`incar.py` lines 32-41): scan top to bottom, return the
parse of the first line the get-pattern matches. -/
def getValue (key : List Char) : List (List Char) → Option IncarValue
  | [] => none
  | l :: ls =>
    match getLineValue key l with
    | some raw => some (parseValue raw)
    | none => getValue key ls

/-- A Python value passed to `IncarFile.set` by this repository (the callers in
`task.py` pass only `bool` and `str`; `int` is included for the round-trip
property).  `float` arguments are not modelled: serialising one goes through
IEEE-754 `str()`. -/
inductive PyVal where
  | bool (b : Bool)
  | int (n : Int)
  | str (s : List Char)
deriving DecidableEq, Repr

/-- One decimal digit as a character. -/
def digitChar : Nat → Char
  | 0 => '0' | 1 => '1' | 2 => '2' | 3 => '3' | 4 => '4'
  | 5 => '5' | 6 => '6' | 7 => '7' | 8 => '8' | 9 => '9'
  | _ => '0'

/-- Little helper for `natToChars`: most-significant-first decimal digits of
`n`, with enough fuel (structural recursion, so that concrete values reduce in
the kernel). -/
def natToCharsAux : Nat → Nat → List Char
  | 0, _ => []
  | _ + 1, 0 => []
  | fuel + 1, n + 1 =>
    natToCharsAux fuel ((n + 1) / 10) ++ [digitChar ((n + 1) % 10)]

/-- Python `str()` of a natural number. -/
def natToChars (n : Nat) : List Char :=
  if n = 0 then ['0'] else natToCharsAux n n

/-- Python `str()` of an `int`. -/
def intToChars (n : Int) : List Char :=
  if n < 0 then '-' :: natToChars n.natAbs else natToChars n.toNat

/-- The `val_str` computed by `IncarFile.set` (`incar.py` lines 48-50):
`INV_BOOL_MAP` for booleans, `str(value)` otherwise. -/
def renderPyVal : PyVal → List Char
  | .bool true => chars ".TRUE."
  | .bool false => chars ".FALSE."
  | .int n => intToChars n
  | .str s => s

/-- The rewrite `IncarFile.set` performs on a line its pattern matches
(`incar.py` lines 56-61): keep the leading indent and any comment suffix,
replace everything between with `key = val_str`.  Lines the pattern does not
match are kept verbatim. -/
def setLine (key valStr l : List Char) : List Char :=
  match matchKeyEq key l with
  | none => l
  | some rest =>
    l.takeWhile isWs ++ key ++ (' ' :: '=' :: ' ' :: valStr)
      ++ rest.dropWhile (fun d => !isCommentChar d)

/-- `IncarFile.set` on a whole file (`incar.py` lines 43-72): rewrite every
matching line, or append `tag = val_str` as a new final line when no line
matched.  (The source's newline fixup before appending is absorbed by the
lines-without-terminator representation.) -/
def setRendered (key valStr : List Char) (f : List (List Char)) : List (List Char) :=
  if f.any (fun l => assigns key l) then f.map (setLine key valStr)
  else f ++ [key ++ (' ' :: '=' :: ' ' :: valStr)]

/-- `IncarFile.set` with a Python value. -/
def setValue (key : List Char) (v : PyVal) (f : List (List Char)) : List (List Char) :=
  setRendered key (renderPyVal v) f

/-- `IncarFile.delete` (`incar.py` lines 74-81): keep exactly the lines the
pattern `^\s*tag\s*=` does not match. -/
def deleteTag (key : List Char) (f : List (List Char)) : List (List Char) :=
  f.filter (fun l => !assigns key l)

/-- The value carried by an assignment line under the file format of the spec
(§3: `key = value [# comment]`): the text after the equals sign with the
comment suffix excluded, parsed.  This is what claim C5 says `get` returns for
the first assignment; `getLineValue` differs from it exactly on assignment
lines whose `=` is immediately followed by a comment marker. -/
def assignedValue (key l : List Char) : Option IncarValue :=
  (matchKeyEq key l).map (fun rest => parseValue (rest.takeWhile (fun d => !isCommentChar d)))

/-- Well-formedness of a tag for which the recursive matcher above coincides
with the source regexes: non-empty, and made of non-whitespace characters. -/
def WfTag (key : List Char) : Prop :=
  key ≠ [] ∧ ∀ c ∈ key, isWs c = false

instance (key : List Char) : Decidable (WfTag key) :=
  inferInstanceAs (Decidable (key ≠ [] ∧ ∀ c ∈ key, isWs c = false))

/-- A value token that survives the line format: no comment markers (which
would turn its tail into a comment) and no newline characters (which would
split the line on the next read). -/
def WfValTok (s : List Char) : Prop :=
  ∀ c ∈ s, isCommentChar c = false ∧ c ≠ '\n' ∧ c ≠ '\r'

instance (s : List Char) : Decidable (WfValTok s) :=
  inferInstanceAs (Decidable (∀ c ∈ s, isCommentChar c = false ∧ c ≠ '\n' ∧ c ≠ '\r'))

/-! ## Watchdog / fallback controller (`task.py`, `VaspJob.monitor_and_restart`) -/

/-- The tag of the acceleration feature. -/
def mlLmlffTag : List Char := chars "ML_LMLFF"

/-- The mode tag of the acceleration feature. -/
def mlModeTag : List Char := chars "ML_MODE"

/-- Python truthiness of a parsed control-file value, as applied to
`incar_file.get("ML_LMLFF", False)` in `monitor_and_restart`.  A float literal
is truthy when some mantissa digit is non-zero (exact-zero literals are falsy;
sub-normal underflow to 0.0 is not modelled — no theorem here touches the
float branch). -/
def pyTruthy : IncarValue → Bool
  | .bool b => b
  | .int n => n != 0
  | .str s => !s.isEmpty
  | .float lit =>
    ((dropSign (stripChars lit)).takeWhile (fun c => !isExpChar c)).any
      (fun c => c.isDigit && c ≠ '0')

/-- Whether the acceleration feature is enabled for the step:
`ml_enabled = incar_file.get("ML_LMLFF", False)` (`task.py` line 112). -/
def mlEnabledOf (incar : List (List Char)) : Bool :=
  pyTruthy ((getValue mlLmlffTag incar).getD (.bool false))

/-- First poll index at which `elapsed > timeout` holds, for the supervising
loop that sleeps 5 seconds per iteration (`task.py` lines 149-157, idealising
`elapsed` after the k-th sleep as exactly `5*k` seconds). -/
def timeoutPoll (timeout : Nat) : Nat := timeout / 5 + 1

/-- Result of one invocation of `VaspJob.monitor_and_restart`.  `cancelled`
records the control file after the two deletions, whether the `CUSTOM`
sentinel file was created in the step directory, and the scheduler cancel
command that was invoked before `sys.exit(1)`. -/
inductive MonitorOutcome where
  | finished (code : Int)
  | cancelled (incarAfter : List (List Char)) (sentinelCreated : Bool) (cancelCmd : List String)
  | fatalNoJobId
  | hangs
deriving DecidableEq, Repr

/-- `VaspJob.monitor_and_restart` (`task.py` lines 104-186).  The child
process and reader thread are abstracted by `exitPoll` (first poll index at
which `process.poll()` reports termination, `none` if the child never exits)
and `markerPoll` (first poll index at which the reader has seen the marker
string, `none` if it never appears); `slurmJobId` is the `SLURM_JOB_ID`
environment variable.  When the feature is disabled the code blocks in
`process.wait()`; when it is enabled, the loop returns the exit code if the
child terminates before the first poll at which the timeout has elapsed with
the marker unseen, and otherwise deletes the two acceleration tags, creates
the sentinel, runs `scancel` with the environment job id (a missing variable
raises `KeyError`) and exits.  (The enclosing `for i in range(3)` never
reaches a second iteration: every path returns, exits or blocks.) -/
def monitorAndRestart (incar : List (List Char)) (exitPoll : Option Nat) (returncode : Int)
    (markerPoll : Option Nat) (slurmJobId : Option String) (timeout : Nat := 300) :
    MonitorOutcome :=
  if mlEnabledOf incar then
    let k0 := timeoutPoll timeout
    let markerSeen := match markerPoll with
      | some m => decide (m ≤ k0)
      | none => false
    if markerSeen then
      match exitPoll with
      | some _ => .finished returncode
      | none => .hangs
    else
      let childDoneEarly := match exitPoll with
        | some e => decide (e ≤ k0)
        | none => false
      if childDoneEarly then .finished returncode
      else
        match slurmJobId with
        | none => .fatalNoJobId
        | some jid =>
          .cancelled (deleteTag mlModeTag (deleteTag mlLmlffTag incar)) true
            ["scancel", jid]
  else
    match exitPoll with
    | some _ => .finished returncode
    | none => .hangs

/-! ## Step-chain executor main loop (`task.py`, `main`) -/

/-- How the `VaspJob` construction-plus-`run()` of one structure ends, as seen
by the `try`/`except` in `main` (`task.py` lines 425-444): normally, with a
`VaspExecutionError` (simulation step exited non-zero), or with a
`FileNotFoundError` (an expected artifact was missing).  Any other exception
is uncaught and would abort the whole runner. -/
inductive JobOutcome where
  | ok
  | vaspError (msg : String)
  | fileMissing (msg : String)
deriving DecidableEq, Repr

/-- One per-structure entry of the status file (`task.py` lines 397-404). -/
structure JobRecord where
  status : String
  timestamp : String
  workdir : String
  error : String
  warning : String
deriving DecidableEq, Repr

/-- The entry created for a structure that has no record yet. -/
def freshRecord : JobRecord :=
  { status := "not-finished", timestamp := "", workdir := "", error := "", warning := "" }

/-- The `ml_train` / `ml_refit` / `ml_predict` flags of the runner. -/
structure MLFlags where
  train : Bool
  refit : Bool
  predict : Bool
deriving DecidableEq, Repr

/-- The `status_data["jobs"]` mapping: insertion-ordered, one entry per
structure file name (Python `dict`). -/
abbrev StatusMap := List (String × JobRecord)

/-- Lookup in the jobs mapping. -/
def lookupJob : StatusMap → String → Option JobRecord
  | [], _ => none
  | (k', r) :: rest, k => if k' = k then some r else lookupJob rest k

/-- In-place update of one entry of the jobs mapping. -/
def updateJob : StatusMap → String → (JobRecord → JobRecord) → StatusMap
  | [], _, _ => []
  | (k', r) :: rest, k, f =>
    if k' = k then (k', f r) :: rest else (k', r) :: updateJob rest k f

/-- State threaded through the structure loop of `main`:
the mutable ML flags, the jobs mapping, the list of snapshots written by
`save_status` (latest last), and the list of structures for which a `VaspJob`
was actually constructed and run, with the flags it was given. -/
structure RunnerState where
  flags : MLFlags
  status : StatusMap
  saves : List StatusMap
  ran : List (String × MLFlags)
deriving DecidableEq, Repr

/-- The initialisation loop of `main` (`task.py` lines 396-404): add a fresh
record for every structure that has none, in structure order, touching no
existing entry. -/
def initJobs (poscars : List String) (st : StatusMap) : StatusMap :=
  poscars.foldl
    (fun acc name => if (lookupJob acc name).isSome then acc else acc ++ [(name, freshRecord)])
    st

/-- The body of the structure loop of `main` (`task.py` lines 406-454) for one
structure.  A structure whose recorded status is `success` is skipped
untouched.  Otherwise: the workdir is recorded, the job is run (`outcome`),
a `VaspExecutionError` stores a warning, a `FileNotFoundError` stores status
`error` plus the message; then — regardless of the outcome — a true `ml_refit`
flag is turned off in favour of `ml_predict`, the timestamp is written, the
status is set to `success`, and the file is saved.  (The `failed` branch at
line 417 only logs.) -/
def processStructure (outcome : String → MLFlags → JobOutcome) (tstamp : Nat → String)
    (workdirOf : String → String) (idx : Nat) (name : String) (s : RunnerState) :
    RunnerState :=
  let rec0 := (lookupJob s.status name).getD freshRecord
  if rec0.status = "success" then s
  else
    let st1 := updateJob s.status name (fun r => { r with workdir := workdirOf name })
    let st2 := match outcome name s.flags with
      | .ok => st1
      | .vaspError m => updateJob st1 name (fun r => { r with warning := m })
      | .fileMissing m => updateJob st1 name (fun r => { r with status := "error", error := m })
    let flags' := if s.flags.refit then { s.flags with refit := false, predict := true } else s.flags
    let st3 := updateJob st2 name (fun r => { r with timestamp := tstamp idx, status := "success" })
    { flags := flags', status := st3, saves := s.saves ++ [st3], ran := s.ran ++ [(name, s.flags)] }

/-- The whole structure loop of `main` (`task.py` lines 383-454): load the
status map, add fresh records, then process each structure in order. -/
def runnerMain (outcome : String → MLFlags → JobOutcome) (tstamp : Nat → String)
    (workdirOf : String → String) (flags0 : MLFlags) (status0 : StatusMap)
    (poscars : List String) : RunnerState :=
  (poscars.enum).foldl
    (fun s p => processStructure outcome tstamp workdirOf p.1 p.2 s)
    { flags := flags0, status := initJobs poscars status0, saves := [], ran := [] }

/-- The structure loop of `main` over an arbitrary list of indexed structure
names, starting from an arbitrary state (the generalisation the inductive
proofs below work with; `runnerMain` is this fold over `poscars.enum`). -/
def runFold (outcome : String → MLFlags → JobOutcome) (tstamp : Nat → String)
    (workdirOf : String → String) (pairs : List (Nat × String)) (s : RunnerState) :
    RunnerState :=
  pairs.foldl (fun s p => processStructure outcome tstamp workdirOf p.1 p.2 s) s

/-- Invariant of the runner loop under an initially enabled `ml_refit` flag:
either nothing was processed yet and the flags are the initial ones, or the
first processed structure got the initial flags, every later one got
`ml_refit` off / `ml_predict` on, and the current flags have `ml_refit` off
and `ml_predict` on. -/
def RefitInv (fl0 : MLFlags) (s : RunnerState) : Prop :=
  (s.ran = [] ∧ s.flags = fl0)
  ∨ ((∃ p rest, s.ran = p :: rest ∧ p.2 = fl0
      ∧ ∀ q ∈ rest, q.2.refit = false ∧ q.2.predict = true)
    ∧ s.flags.refit = false ∧ s.flags.predict = true)

/-! ## Batch client (`scheduler.py`, `submit_job`) -/

/-- Worker for `splitTokens`, carrying the current token reversed (structural
recursion, so concrete values reduce in the kernel). -/
def splitTokensAux : List Char → List Char → List (List Char)
  | [], acc => if acc.isEmpty then [] else [acc.reverse]
  | c :: rest, acc =>
    if isWs c then
      if acc.isEmpty then splitTokensAux rest []
      else acc.reverse :: splitTokensAux rest []
    else splitTokensAux rest (c :: acc)

/-- Python `str.split()` with no argument: split on runs of whitespace,
discarding empty tokens (the preceding `strip()` in `submit_job` is thereby
absorbed). -/
def splitTokens (l : List Char) : List (List Char) := splitTokensAux l []

/-- Continuation of Python `int()`'s digit run after an initial digit has
been read: each further underscore must sit between two digits, so a leading,
trailing or doubled underscore is rejected. -/
def digitsUnderscore : List Char → Bool
  | [] => true
  | '_' :: c :: rest => c.isDigit && digitsUnderscore rest
  | c :: rest => c.isDigit && digitsUnderscore rest

/-- Python `int()` on a whitespace-free token: optional sign, then a digit
followed by digits possibly separated by single underscores (a token whose
digit part starts with an underscore, such as `_5`, raises `ValueError`);
`none` models the `ValueError`. -/
def pyIntTok : List Char → Option Int
  | [] => none
  | c :: rest =>
    let digits := if c = '+' || c = '-' then rest else c :: rest
    match digits with
    | [] => none
    | d :: dtail =>
      if d.isDigit && digitsUnderscore dtail then
        let n : Int := natOfChars ((d :: dtail).filter (fun x => x ≠ '_'))
        some (if c = '-' then -n else n)
      else none

/-- How `submit_job` (`scheduler.py` lines 38-73) ends: with a parsed job id,
with a `SlurmSubmissionError` (non-zero `sbatch` exit caught as
`CalledProcessError`, or an output that fails the token check), or with the
uncaught `ValueError` that `int(parts[3])` raises when the fourth token is not
an integer literal. -/
inductive SubmitOutcome where
  | submitted (jobId : Int)
  | submissionError
  | valueErrorCrash
deriving DecidableEq, Repr

/-- The fourth whitespace-separated token of `sbatch`'s stdout, provided there
are at least four tokens and the first three are `Submitted`, `batch`, `job`
(`scheduler.py` line 65). -/
def ackToken (stdout : List Char) : Option (List Char) :=
  match splitTokens stdout with
  | t0 :: t1 :: t2 :: t3 :: _ =>
    if t0 = chars "Submitted" ∧ t1 = chars "batch" ∧ t2 = chars "job" then some t3 else none
  | _ => none

/-- Whether stdout matches the acknowledgement pattern
`Submitted batch job <integer>` in the sense of the token check plus a
parseable integer fourth token. -/
def matchesAck (stdout : List Char) : Bool :=
  match ackToken stdout with
  | some t => (pyIntTok t).isSome
  | none => false

/-- `submit_job` (`scheduler.py` lines 38-73), after the script template has
been rendered into a temporary file.  `exitZero` is whether the `sbatch`
invocation (run with `check=True`) exited 0; `stdout` is its standard output.
The second component records whether the temporary script file was removed —
the `finally` clause makes it `true` on every path. -/
def submitJob (exitZero : Bool) (stdout : List Char) : SubmitOutcome × Bool :=
  if !exitZero then (.submissionError, true)
  else
    match ackToken stdout with
    | none => (.submissionError, true)
    | some t =>
      match pyIntTok t with
      | some n => (.submitted n, true)
      | none => (.valueErrorCrash, true)

/-! ## Output collection (`scheduler.py`, `CalypsoScheduler.copy_output_from_task_from_id`) -/

/-- One `step_<n>` directory of a per-structure job directory, as seen by the
collector: its parsed index and whether `CONTCAR` / `OUTCAR` exist in it. -/
structure StepDir where
  idx : Nat
  hasContcar : Bool
  hasOutcar : Bool
deriving DecidableEq, Repr

/-- One `job_*` directory of a task. -/
structure JobDir where
  name : List Char
  isDir : Bool
  hasPoscarOriginal : Bool
  steps : List StepDir
deriving DecidableEq, Repr

/-- Python `str.split(sep)` for a one-character separator (splits at every
occurrence, keeping empty pieces). -/
def splitOnChar (sep : Char) : List Char → List (List Char)
  | [] => [[]]
  | c :: rest =>
    if c = sep then [] :: splitOnChar sep rest
    else
      match splitOnChar sep rest with
      | [] => [[c]]
      | t :: ts => (c :: t) :: ts

/-- `folder.name.split("_")[1]`: the structure id extracted from the job
directory name (an `IndexError` — impossible for a `job_*` glob match — makes
the collector skip the directory). -/
def jobNum (name : List Char) : Option (List Char) :=
  (splitOnChar '_' name).get? 1

/-- Python `max(step_folders, key=extract_step_number)`: the first step of
maximal index (`scheduler.py` line 284). -/
def maxStep : List StepDir → Option StepDir
  | [] => none
  | s :: rest => some (rest.foldl (fun b t => if b.idx < t.idx then t else b) s)

/-- A copy performed by the collector into the generator's workspace, keyed by
the structure id. -/
inductive CopyAction where
  | poscar (num : List Char)
  | contcar (num : List Char) (stepIdx : Nat)
  | outcar (num : List Char) (stepIdx : Nat)
deriving DecidableEq, Repr

/-- The body of the collector's loop for one job directory (`scheduler.py`
lines 266-318): skip non-directories, unnumbered names and jobs without step
directories; otherwise select the step of maximal index, raise
`FileNotFoundError` if `POSCAR_ORIGINAL` is missing, copy it, copy `CONTCAR`
from the selected step only when it exists (a missing one is only logged),
then raise `FileNotFoundError` if `OUTCAR` is missing in the selected step and
copy it otherwise.  Errors abort the whole collection (copies already
performed before the raise are not recorded). -/
def collectJob (j : JobDir) : Except String (List CopyAction) :=
  if !j.isDir then .ok []
  else
    match jobNum j.name with
    | none => .ok []
    | some num =>
      match maxStep j.steps with
      | none => .ok []
      | some s =>
        if !j.hasPoscarOriginal then .error ("POSCAR_ORIGINAL missing in " ++ String.mk j.name)
        else
          let acts := [CopyAction.poscar num]
            ++ (if s.hasContcar then [CopyAction.contcar num s.idx] else [])
          if !s.hasOutcar then .error ("OUTCAR missing in " ++ String.mk j.name)
          else .ok (acts ++ [CopyAction.outcar num s.idx])

/-- `copy_output_from_task_from_id` over the job directories of a task, in
listing order. -/
def collectOutputs : List JobDir → Except String (List CopyAction)
  | [] => .ok []
  | j :: rest =>
    match collectJob j with
    | .error e => .error e
    | .ok a =>
      match collectOutputs rest with
      | .error e => .error e
      | .ok b => .ok (a ++ b)

/-- Modelled from the spec's words (§4.5 / claim C3), for comparison with the
code: select "the step with the highest step index that has a final output
structure", i.e. the maximal-index step among those containing `CONTCAR`, and
copy that step's `CONTCAR` and `OUTCAR`. -/
def collectJobClaimed (j : JobDir) : Except String (List CopyAction) :=
  if !j.isDir then .ok []
  else
    match jobNum j.name with
    | none => .ok []
    | some num =>
      match maxStep (j.steps.filter (fun s => s.hasContcar)) with
      | none => .ok []
      | some s =>
        if !j.hasPoscarOriginal then .error ("POSCAR_ORIGINAL missing in " ++ String.mk j.name)
        else if !s.hasOutcar then .error ("OUTCAR missing in " ++ String.mk j.name)
        else .ok [CopyAction.poscar num, CopyAction.contcar num s.idx, CopyAction.outcar num s.idx]

/-- The spec-side collector over all job directories. -/
def collectOutputsClaimed : List JobDir → Except String (List CopyAction)
  | [] => .ok []
  | j :: rest =>
    match collectJobClaimed j with
    | .error e => .error e
    | .ok a =>
      match collectOutputsClaimed rest with
      | .error e => .error e
      | .ok b => .ok (a ++ b)

/-- The copy actions `collectJob` performs on the success path for one job
directory. -/
def okActs (j : JobDir) : List CopyAction :=
  match jobNum j.name, maxStep j.steps with
  | some num, some s =>
    [CopyAction.poscar num] ++ (if s.hasContcar then [CopyAction.contcar num s.idx] else [])
      ++ [CopyAction.outcar num s.idx]
  | _, _ => []

/-- A job directory the collector fully processes rather than skips or aborts
on immediately: a directory with a numbered name, at least one step directory,
and the original input structure present. -/
def Processable (j : JobDir) : Prop :=
  j.isDir = true ∧ j.hasPoscarOriginal = true ∧ jobNum j.name ≠ none ∧ j.steps ≠ []

instance (j : JobDir) : Decidable (Processable j) :=
  inferInstanceAs
    (Decidable (j.isDir = true ∧ j.hasPoscarOriginal = true ∧ jobNum j.name ≠ none ∧ j.steps ≠ []))

/-! ## Orchestrator state machine (`scheduler.py`, `CalypsoScheduler.run` and
`check_if_all_task_job_completed_from_id`) -/

/-- The parsed `status.json` of a task: the optional `jobs` mapping, each
entry carrying its optional `status` field. -/
structure JobStatusDoc where
  jobs : Option (List (String × Option String))
deriving DecidableEq, Repr

/-- The entry scan of `check_if_all_task_job_completed_from_id`
(`scheduler.py` lines 249-260): a missing `status` key raises, a non-`success`
status returns `False`, an exhausted scan returns `True`. -/
def checkEntries : List (String × Option String) → Except String Bool
  | [] => .ok true
  | (name, none) :: _ => .error ("no status key for " ++ name)
  | (_, some s) :: rest => if s ≠ "success" then .ok false else checkEntries rest

/-- `check_if_all_task_job_completed_from_id` (`scheduler.py` lines 235-260):
`False` when the status file does not exist, `RuntimeError` when it lacks the
`jobs` key, otherwise the scan of the entries (vacuously `True` when the
mapping is empty). -/
def checkAllCompleted : Option JobStatusDoc → Except String Bool
  | none => .ok false
  | some doc =>
    match doc.jobs with
    | none => .error "status.json has no jobs key"
    | some entries => checkEntries entries

/-- The per-generation state the orchestrator's loop body observes through the
filesystem and the scheduler: the generation read from the generator's `step`
counter file, whether `task_<gen>/config.json` exists, the `current_id` of
`slurm.json`, the scheduler state reported for that id, the parsed
`status.json`, and the generator's current `POSCAR_*` files. -/
structure SchedState where
  generation : Option Int
  taskConfigExists : Bool
  slurmId : Option String
  jobState : String
  statusDoc : Option JobStatusDoc
  poscars : List String
deriving DecidableEq, Repr

/-- An externally visible action of one iteration of the orchestrator loop. -/
inductive SchedAction where
  | prepareTask (gen : Int) (train refit predict : Bool)
  | submitBatch (gen : Int) (jobName : String)
  | pollWait
  | collect (gen : Int)
  | runGenerator
  | fatal (msg : String)
deriving DecidableEq, Repr

/-- One iteration of the `while True` body of `CalypsoScheduler.run`
(`scheduler.py` lines 404-449), up to its `continue` or its fall-through into
the generator invocation.  Returns the state after the iteration's filesystem
writes together with the actions taken: task creation persists the config file
(`prepare_task_from_poscars` line 394), a submission overwrites `slurm.json`
with the id `newId` returned by `sbatch`.  A generation with no `POSCAR_*`
files crashes task creation (`prepare_task_from_poscars` iterates `None`); a
status document that fails `check_if_all_task_job_completed_from_id` with a
`RuntimeError` crashes the loop. -/
def schedIter (mlTrainUntil : Int) (newId : String) (st : SchedState) :
    SchedState × List SchedAction :=
  match st.generation with
  | none => (st, [.runGenerator])
  | some gen =>
    if st.taskConfigExists then
      match st.slurmId with
      | none => ({ st with slurmId := some newId }, [.submitBatch gen (toString gen)])
      | some _ =>
        if st.jobState = "PENDING" ∨ st.jobState = "RUNNING" then (st, [.pollWait])
        else
          match checkAllCompleted st.statusDoc with
          | .error e => (st, [.fatal e])
          | .ok false =>
            ({ st with slurmId := some newId }, [.submitBatch gen (toString gen ++ "R")])
          | .ok true => (st, [.collect gen, .runGenerator])
    else
      match st.poscars with
      | [] => (st, [.fatal "prepare_task_from_poscars called with poscars=None"])
      | _ :: _ =>
        ({ st with taskConfigExists := true },
          [.prepareTask gen (decide (gen < mlTrainUntil)) (decide (gen = mlTrainUntil))
            (decide (mlTrainUntil < gen))])

/-- Recogniser for task-creation actions. -/
def isPrepareAction : SchedAction → Bool
  | .prepareTask _ _ _ _ => true
  | _ => false

/-- Recogniser for batch-submission actions. -/
def isSubmitAction : SchedAction → Bool
  | .submitBatch _ _ => true
  | _ => false

/-- The shape claim C9 asserts of the runner's processing trace when the
`ml_refit` flag was enabled at start: the first structure actually processed
receives the initial flags, and every later one runs with `ml_refit` off and
`ml_predict` on. -/
def RanGood (fl0 : MLFlags) : List (String × MLFlags) → Prop
  | [] => True
  | p :: rest => p.2 = fl0 ∧ ∀ q ∈ rest, q.2.refit = false ∧ q.2.predict = true

/-- The recorded status of one structure, as the runner's skip test reads it
(`task.py` line 412). -/
def recStatus (st : StatusMap) (name : String) : String :=
  ((lookupJob st name).getD freshRecord).status

/-! ## Helper lemmas about the control-file model -/

theorem dropExact_self (k r : List Char) : dropExact k (k ++ r) = some r := by
  induction k with
  | nil => cases r <;> rfl
  | cons c cs ih => simp [dropExact, ih]

theorem dropWhile_ws_append (w l : List Char) (hw : ∀ c ∈ w, isWs c = true) :
    (w ++ l).dropWhile isWs = l.dropWhile isWs := by
  induction w with
  | nil => rfl
  | cons c cs ih =>
    have hc : isWs c = true := hw c (by simp)
    simp only [List.cons_append, List.dropWhile_cons, hc, if_true]
    exact ih (fun d hd => hw d (by simp [hd]))

theorem takeWhile_append_all (p : Char → Bool) (s t : List Char) (hs : ∀ c ∈ s, p c = true) :
    (s ++ t).takeWhile p = s ++ t.takeWhile p := by
  induction s with
  | nil => rfl
  | cons c cs ih =>
    have hc : p c = true := hs c (by simp)
    simp only [List.cons_append, List.takeWhile_cons, hc, if_true, List.cons.injEq, true_and]
    exact ih (fun d hd => hs d (by simp [hd]))

theorem takeWhile_dropWhile_nil (p : Char → Bool) (l : List Char) :
    (l.dropWhile p).takeWhile p = [] := by
  induction l with
  | nil => rfl
  | cons c cs ih =>
    by_cases hc : p c = true
    · simpa [List.dropWhile_cons, hc] using ih
    · simp only [Bool.not_eq_true] at hc
      simp [List.dropWhile_cons, List.takeWhile_cons, hc]

theorem head_dropWhile (p : Char → Bool) (l : List Char) :
    l.dropWhile p = [] ∨ ∃ c rest, l.dropWhile p = c :: rest ∧ p c = false := by
  induction l with
  | nil => exact Or.inl rfl
  | cons c cs ih =>
    by_cases hc : p c = true
    · simpa [List.dropWhile_cons, hc] using ih
    · simp only [Bool.not_eq_true] at hc
      exact Or.inr ⟨c, cs, by simp [List.dropWhile_cons, hc]⟩

theorem getLineValue_of_not_assigns {key l : List Char} (h : assigns key l = false) :
    getLineValue key l = none := by
  unfold getLineValue
  unfold assigns at h
  cases hm : matchKeyEq key l with
  | none => rfl
  | some rest => rw [hm] at h; simp at h

theorem setLine_of_not_assigns {key s l : List Char} (h : assigns key l = false) :
    setLine key s l = l := by
  unfold setLine
  unfold assigns at h
  cases hm : matchKeyEq key l with
  | none => rfl
  | some rest => rw [hm] at h; simp at h

theorem matchKeyEq_shape (key : List Char) (hk : WfTag key) (w : List Char)
    (hw : ∀ c ∈ w, isWs c = true) (s : List Char) :
    matchKeyEq key (w ++ key ++ (' ' :: '=' :: ' ' :: s)) = some (' ' :: s) := by
  obtain ⟨hne, hkc⟩ := hk
  obtain ⟨k0, ks, rfl⟩ : ∃ k0 ks, key = k0 :: ks := by
    cases key with
    | nil => exact absurd rfl hne
    | cons k0 ks => exact ⟨k0, ks, rfl⟩
  have hk0 : isWs k0 = false := hkc k0 (by simp)
  unfold matchKeyEq
  rw [List.append_assoc, dropWhile_ws_append w _ hw, List.cons_append, List.dropWhile_cons, hk0]
  simp only [Bool.false_eq_true, if_false]
  rw [← List.cons_append, dropExact_self]
  simp [List.dropWhile_cons, isWs]

theorem getLineValue_shape (key : List Char) (hk : WfTag key) (w : List Char)
    (hw : ∀ c ∈ w, isWs c = true) (valStr comment : List Char)
    (hs : ∀ c ∈ valStr, isCommentChar c = false)
    (hcmt : comment = [] ∨ ∃ c rest, comment = c :: rest ∧ isCommentChar c = true) :
    getLineValue key (w ++ key ++ (' ' :: '=' :: ' ' :: (valStr ++ comment)))
      = some (' ' :: valStr) := by
  unfold getLineValue
  rw [matchKeyEq_shape key hk w hw (valStr ++ comment)]
  have hsp : isCommentChar ' ' = false := rfl
  simp only [hsp, Bool.false_eq_true, if_false]
  have htake : (valStr ++ comment).takeWhile (fun d => !isCommentChar d) = valStr := by
    rw [takeWhile_append_all _ _ _ (fun c hc => by simp [hs c hc])]
    rcases hcmt with h | ⟨c, rest, rfl, hcc⟩
    · simp [h]
    · simp [List.takeWhile_cons, hcc]
  simp [List.takeWhile_cons, hsp, htake]

theorem setLine_assigned {key l rest : List Char} (s : List Char)
    (hm : matchKeyEq key l = some rest) :
    setLine key s l
      = l.takeWhile isWs ++ key
        ++ (' ' :: '=' :: ' ' :: (s ++ rest.dropWhile (fun d => !isCommentChar d))) := by
  unfold setLine
  rw [hm]
  simp [List.append_assoc]

theorem getLineValue_setLine {key l rest : List Char} (hk : WfTag key) (s : List Char)
    (hs : ∀ c ∈ s, isCommentChar c = false) (hm : matchKeyEq key l = some rest) :
    getLineValue key (setLine key s l) = some (' ' :: s) := by
  rw [setLine_assigned s hm]
  refine getLineValue_shape key hk _ (fun c hc => List.mem_takeWhile_imp hc) s _ hs ?_
  rcases head_dropWhile (fun d => !isCommentChar d) rest with h | ⟨c, tail, heq, hcc⟩
  · exact Or.inl h
  · exact Or.inr ⟨c, tail, heq, by simpa using hcc⟩

theorem parseValue_cons_space (s : List Char) : parseValue (' ' :: s) = parseValue s := by
  unfold parseValue
  have : stripChars (' ' :: s) = stripChars s := by
    unfold stripChars
    rw [List.dropWhile_cons]
    norm_num [isWs]
  rw [this]

theorem getValue_append_none {key : List Char} {f : List (List Char)}
    (h : ∀ l ∈ f, getLineValue key l = none) (g : List (List Char)) :
    getValue key (f ++ g) = getValue key g := by
  induction f with
  | nil => rfl
  | cons l ls ih =>
    have hl := h l (by simp)
    simp only [List.cons_append, getValue, hl]
    exact ih (fun l' hl' => h l' (by simp [hl']))

theorem getValue_none_of_all {key : List Char} {f : List (List Char)}
    (h : ∀ l ∈ f, getLineValue key l = none) : getValue key f = none := by
  have := getValue_append_none h []
  simpa using this

/-! ## Helper lemmas for the decimal round trip of `parseValue ∘ renderPyVal` -/

theorem digitChar_spec :
    ∀ d : Nat, d < 10 →
      (digitChar d).isDigit = true ∧ (digitChar d).toNat - '0'.toNat = d
      ∧ isWs (digitChar d) = false ∧ digitChar d ≠ '+' ∧ digitChar d ≠ '-'
      ∧ Char.toUpper (digitChar d) = digitChar d := by
  decide

theorem stripChars_of_no_ws {l : List Char} (h : ∀ c ∈ l, isWs c = false) :
    stripChars l = l := by
  have drop_id : ∀ m : List Char, (∀ c ∈ m, isWs c = false) → m.dropWhile isWs = m := by
    intro m hm
    cases m with
    | nil => rfl
    | cons c cs => simp [List.dropWhile_cons, hm c (by simp)]
  unfold stripChars
  rw [drop_id l h, drop_id l.reverse (fun c hc => h c (List.mem_reverse.mp hc)),
    List.reverse_reverse]

theorem natToCharsAux_digits :
    ∀ fuel n, ∀ c ∈ natToCharsAux fuel n, ∃ d, d < 10 ∧ c = digitChar d := by
  intro fuel
  induction fuel with
  | zero => intro n c hc; simp [natToCharsAux] at hc
  | succ fuel ih =>
    intro n c hc
    cases n with
    | zero => simp [natToCharsAux] at hc
    | succ m =>
      simp only [natToCharsAux] at hc
      rcases List.mem_append.mp hc with h | h
      · exact ih _ c h
      · have hc' : c = digitChar ((m + 1) % 10) := by simpa using h
        exact ⟨(m + 1) % 10, Nat.mod_lt _ (by norm_num), hc'⟩

theorem natOfChars_append_one (xs : List Char) (c : Char) :
    natOfChars (xs ++ [c]) = 10 * natOfChars xs + (c.toNat - '0'.toNat) := by
  unfold natOfChars
  rw [List.foldl_append]
  rfl

theorem natOfChars_natToCharsAux :
    ∀ fuel n, n ≤ fuel → natOfChars (natToCharsAux fuel n) = n := by
  intro fuel
  induction fuel with
  | zero =>
    intro n hn
    have hz : n = 0 := by omega
    subst hz
    rfl
  | succ fuel ih =>
    intro n hn
    cases n with
    | zero => rfl
    | succ m =>
      rw [show natToCharsAux (fuel + 1) (m + 1)
          = natToCharsAux fuel ((m + 1) / 10) ++ [digitChar ((m + 1) % 10)] from rfl]
      rw [natOfChars_append_one]
      have hq : (m + 1) / 10 ≤ fuel := by
        have := Nat.div_lt_self (Nat.succ_pos m) (show 1 < 10 by norm_num)
        omega
      rw [ih _ hq]
      have hr : (m + 1) % 10 < 10 := Nat.mod_lt _ (by norm_num)
      rw [(digitChar_spec _ hr).2.1]
      omega

theorem natOfChars_natToChars (n : Nat) : natOfChars (natToChars n) = n := by
  unfold natToChars
  by_cases hn : n = 0
  · rw [if_pos hn, hn]
    rfl
  · rw [if_neg hn]
    exact natOfChars_natToCharsAux n n le_rfl

theorem natToChars_digits (n : Nat) : ∀ c ∈ natToChars n, ∃ d, d < 10 ∧ c = digitChar d := by
  unfold natToChars
  by_cases hn : n = 0
  · rw [if_pos hn]
    intro c hc
    exact ⟨0, by norm_num, by simpa using hc⟩
  · rw [if_neg hn]
    exact natToCharsAux_digits n n

theorem natToChars_ne_nil (n : Nat) : natToChars n ≠ [] := by
  unfold natToChars
  by_cases hn : n = 0
  · rw [if_pos hn]
    simp
  · rw [if_neg hn]
    cases n with
    | zero => exact absurd rfl hn
    | succ m => simp [natToCharsAux]

theorem natToChars_all_isDigit (n : Nat) : ∀ c ∈ natToChars n, c.isDigit = true := by
  intro c hc
  obtain ⟨d, hd, rfl⟩ := natToChars_digits n c hc
  exact (digitChar_spec d hd).1

theorem dropSign_of_digits {l : List Char} (h : ∀ c ∈ l, c.isDigit = true) :
    dropSign l = l := by
  cases l with
  | nil => rfl
  | cons c cs =>
    have hc := h c (by simp)
    unfold dropSign
    have h1 : c ≠ '+' := by rintro rfl; simp [Char.isDigit] at hc
    have h2 : c ≠ '-' := by rintro rfl; simp [Char.isDigit] at hc
    simp [h1, h2]

theorem map_toUpper_of_digits {l : List Char} (h : ∀ c ∈ l, ∃ d, d < 10 ∧ c = digitChar d) :
    l.map Char.toUpper = l := by
  have : ∀ c ∈ l, Char.toUpper c = c := by
    intro c hc
    obtain ⟨d, hd, rfl⟩ := h c hc
    exact (digitChar_spec d hd).2.2.2.2.2
  calc l.map Char.toUpper = l.map id := List.map_congr_left this
  _ = l := List.map_id l

theorem digits_ne_true_lit {l : List Char} (h : ∀ c ∈ l, c.isDigit = true) :
    l ≠ chars ".TRUE." ∧ l ≠ chars ".FALSE." := by
  constructor
  · intro he
    have : ('.' : Char).isDigit = true := h '.' (by rw [he]; decide)
    simp [Char.isDigit] at this
  · intro he
    have : ('.' : Char).isDigit = true := h '.' (by rw [he]; decide)
    simp [Char.isDigit] at this

theorem parseValue_natToChars (m : Nat) : parseValue (natToChars m) = .int (m : Int) := by
  have hdig := natToChars_all_isDigit m
  have hws : ∀ c ∈ natToChars m, isWs c = false := by
    intro c hc
    obtain ⟨d, hd, rfl⟩ := natToChars_digits m c hc
    exact (digitChar_spec d hd).2.2.1
  unfold parseValue
  simp only [stripChars_of_no_ws hws, map_toUpper_of_digits (natToChars_digits m)]
  obtain ⟨h1, h2⟩ := digits_ne_true_lit hdig
  rw [if_neg h1, if_neg h2]
  obtain ⟨c, cs, hcons⟩ : ∃ c cs, natToChars m = c :: cs := by
    cases hx : natToChars m with
    | nil => exact absurd hx (natToChars_ne_nil m)
    | cons c cs => exact ⟨c, cs, rfl⟩
  have hc := hdig c (by rw [hcons]; simp)
  have hcm : c ≠ '-' := by rintro rfl; simp [Char.isDigit] at hc
  have hcp : c ≠ '+' := by rintro rfl; simp [Char.isDigit] at hc
  have hint : isIntLit (natToChars m) = true := by
    unfold isIntLit allDigits1
    rw [dropSign_of_digits hdig, hcons]
    simp only [List.isEmpty_cons, Bool.not_false, Bool.true_and, List.all_eq_true]
    intro x hx
    exact hdig x (hcons ▸ hx)
  rw [if_pos hint]
  have hval : intOfChars (natToChars m) = (m : Int) := by
    rw [hcons]
    simp only [intOfChars]
    rw [if_neg hcm, if_neg hcp, ← hcons, natOfChars_natToChars]
  rw [hval]

theorem parseValue_intToChars (n : Int) : parseValue (intToChars n) = .int n := by
  by_cases hn : n < 0
  · unfold intToChars
    rw [if_pos hn]
    have hdig := natToChars_all_isDigit n.natAbs
    have habs : n.natAbs ≠ 0 := by omega
    have hws : ∀ c ∈ '-' :: natToChars n.natAbs, isWs c = false := by
      intro c hc
      rcases List.mem_cons.mp hc with rfl | hc'
      · decide
      · obtain ⟨d, hd, rfl⟩ := natToChars_digits n.natAbs c hc'
        exact (digitChar_spec d hd).2.2.1
    have hup : ('-' :: natToChars n.natAbs).map Char.toUpper = '-' :: natToChars n.natAbs := by
      rw [List.map_cons, map_toUpper_of_digits (natToChars_digits n.natAbs)]
      rfl
    unfold parseValue
    simp only [stripChars_of_no_ws hws, hup]
    have hne1 : '-' :: natToChars n.natAbs ≠ chars ".TRUE." := by
      intro he
      have hh := congrArg (fun l => l.head?) he
      simp [chars] at hh
    have hne2 : '-' :: natToChars n.natAbs ≠ chars ".FALSE." := by
      intro he
      have hh := congrArg (fun l => l.head?) he
      simp [chars] at hh
    rw [if_neg hne1, if_neg hne2]
    obtain ⟨c, cs, hcons⟩ : ∃ c cs, natToChars n.natAbs = c :: cs := by
      cases hx : natToChars n.natAbs with
      | nil => exact absurd hx (natToChars_ne_nil n.natAbs)
      | cons c cs => exact ⟨c, cs, rfl⟩
    have hint : isIntLit ('-' :: natToChars n.natAbs) = true := by
      unfold isIntLit
      have hds : dropSign ('-' :: natToChars n.natAbs) = natToChars n.natAbs := by
        simp [dropSign]
      rw [hds]
      unfold allDigits1
      rw [hcons]
      simp only [List.isEmpty_cons, Bool.not_false, Bool.true_and, List.all_eq_true]
      intro x hx
      exact hdig x (hcons ▸ hx)
    rw [if_pos hint]
    have hval : intOfChars ('-' :: natToChars n.natAbs) = n := by
      simp only [intOfChars, if_pos rfl]
      rw [natOfChars_natToChars]
      show -(n.natAbs : Int) = n
      omega
    rw [hval]
  · unfold intToChars
    rw [if_neg hn, parseValue_natToChars]
    congr 1
    omega

/-! ## Helper lemmas about `set` followed by `get` -/

theorem getValue_map_setLine {key valStr : List Char} (hk : WfTag key)
    (hs : ∀ c ∈ valStr, isCommentChar c = false) :
    ∀ f : List (List Char), f.any (fun l => assigns key l) = true →
      getValue key (f.map (setLine key valStr)) = some (parseValue valStr) := by
  intro f
  induction f with
  | nil => intro h; simp at h
  | cons l ls ih =>
    intro h
    cases hl : assigns key l with
    | true =>
      obtain ⟨rest, hm⟩ : ∃ rest, matchKeyEq key l = some rest := by
        unfold assigns at hl
        cases hx : matchKeyEq key l with
        | none => rw [hx] at hl; simp at hl
        | some rest => exact ⟨rest, rfl⟩
      simp only [List.map_cons, getValue, getLineValue_setLine hk valStr hs hm]
      rw [parseValue_cons_space]
    | false =>
      have hls : ls.any (fun l => assigns key l) = true := by
        simp only [List.any_cons, hl, Bool.false_or] at h
        exact h
      simp only [List.map_cons, setLine_of_not_assigns hl, getValue,
        getLineValue_of_not_assigns hl]
      exact ih hls

theorem getValue_setRendered {key valStr : List Char} (f : List (List Char)) (hk : WfTag key)
    (hs : ∀ c ∈ valStr, isCommentChar c = false) :
    getValue key (setRendered key valStr f) = some (parseValue valStr) := by
  unfold setRendered
  by_cases hAny : (f.any fun l => assigns key l) = true
  · rw [if_pos hAny]
    exact getValue_map_setLine hk hs f hAny
  · rw [if_neg hAny]
    have hall : ∀ l ∈ f, assigns key l = false := by
      intro l hl
      cases hx : assigns key l with
      | false => rfl
      | true => exact absurd (List.any_eq_true.mpr ⟨l, hl, hx⟩) hAny
    rw [getValue_append_none (fun l hl => getLineValue_of_not_assigns (hall l hl))]
    have hshape := getLineValue_shape key hk [] (by simp) valStr [] hs (Or.inl rfl)
    simp only [List.append_nil, List.nil_append] at hshape
    simp only [getValue, hshape]
    rw [parseValue_cons_space]

theorem getValue_first_visible {key : List Char} (f pre : List (List Char))
    (l : List Char) (post : List (List Char)) (hsplit : f = pre ++ l :: post)
    (hpre : ∀ l' ∈ pre, getLineValue key l' = none)
    (hvis : getLineValue key l ≠ none) :
    getValue key f = Option.map parseValue (getLineValue key l) := by
  subst hsplit
  rw [getValue_append_none hpre]
  obtain ⟨raw, hraw⟩ : ∃ raw, getLineValue key l = some raw := by
    cases hx : getLineValue key l with
    | none => exact absurd hx hvis
    | some raw => exact ⟨raw, rfl⟩
  simp only [getValue, hraw, Option.map_some']

theorem assignedValue_eq_visible {key l : List Char} (hvis : getLineValue key l ≠ none) :
    assignedValue key l = Option.map parseValue (getLineValue key l) := by
  unfold getLineValue at hvis
  unfold assignedValue getLineValue
  cases hm : matchKeyEq key l with
  | none => simp [hm]
  | some rest =>
    cases rest with
    | nil => simp
    | cons c cs =>
      cases hc : isCommentChar c with
      | true => rw [hm] at hvis; simp [hc] at hvis
      | false => simp [hc]

theorem setRendered_no_divergence {key valStr : List Char} (f : List (List Char))
    (hk : WfTag key) (hs : ∀ c ∈ valStr, isCommentChar c = false) :
    ∀ l ∈ setRendered key valStr f, assigns key l = true →
      Option.map parseValue (getLineValue key l) = some (parseValue valStr) := by
  intro l hl hassign
  unfold setRendered at hl
  by_cases hAny : (f.any fun l => assigns key l) = true
  · rw [if_pos hAny] at hl
    obtain ⟨l0, hl0, rfl⟩ := List.mem_map.mp hl
    cases hx : assigns key l0 with
    | false =>
      rw [setLine_of_not_assigns hx] at hassign ⊢
      rw [hx] at hassign
      simp at hassign
    | true =>
      obtain ⟨rest, hm⟩ : ∃ rest, matchKeyEq key l0 = some rest := by
        unfold assigns at hx
        cases hy : matchKeyEq key l0 with
        | none => rw [hy] at hx; simp at hx
        | some rest => exact ⟨rest, rfl⟩
      rw [getLineValue_setLine hk valStr hs hm]
      simp only [Option.map_some']
      rw [parseValue_cons_space]
  · rw [if_neg hAny] at hl
    rcases List.mem_append.mp hl with hmem | hmem
    · exact absurd (List.any_eq_true.mpr ⟨l, hmem, hassign⟩) hAny
    · have hleq : l = key ++ (' ' :: '=' :: ' ' :: valStr) := by simpa using hmem
      subst hleq
      have hshape := getLineValue_shape key hk [] (by simp) valStr [] hs (Or.inl rfl)
      simp only [List.append_nil, List.nil_append] at hshape
      rw [hshape]
      simp only [Option.map_some']
      rw [parseValue_cons_space]

/-! ## Claim theorems for the Control-File Store -/

/-- C4 counterexample: the round-trip fails as universally stated.  With the
string value `a #1`, `set` writes the line `SYSTEM = a #1`, whose `#` starts a
comment, so `get` returns the string `a` — not a value equal to `a #1` under
the type-inference precedence (which parses the full token to the opaque
string `a #1`). -/
theorem incar_roundtrip_cex :
    getValue (chars "SYSTEM")
        (setValue (chars "SYSTEM") (.str (chars "a #1")) [chars "ENCUT = 500"])
      = some (.str (chars "a"))
    ∧ parseValue (renderPyVal (.str (chars "a #1"))) = .str (chars "a #1")
    ∧ IncarValue.str (chars "a") ≠ IncarValue.str (chars "a #1") := by
  refine ⟨by decide, by decide, by decide⟩

/-- C4 (amended): for every control file, every key that is a non-empty
whitespace-free token and every bool/int/string value whose rendered text
contains no comment marker and no newline, `set(key, v)` followed by
`get(key)` returns the value obtained from `v` under the declared
type-inference precedence (boolean and integer values come back equal to `v`;
a string value is re-inferred from its text), and every line that does not
assign `key` is rewritten to itself, byte-identically. -/
theorem incar_set_get_roundtrip (f : List (List Char)) (key : List Char) (v : PyVal)
    (hk : WfTag key) (hv : WfValTok (renderPyVal v)) :
    getValue key (setValue key v f) = some (parseValue (renderPyVal v))
    ∧ (∀ b, parseValue (renderPyVal (.bool b)) = .bool b)
    ∧ (∀ n : Int, parseValue (renderPyVal (.int n)) = .int n)
    ∧ (∀ l ∈ f, assigns key l = false → setLine key (renderPyVal v) l = l) := by
  refine ⟨?_, ?_, ?_, ?_⟩
  · exact getValue_setRendered f hk (fun c hc => (hv c hc).1)
  · intro b; cases b <;> decide
  · exact parseValue_intToChars
  · intro l _ hl
    exact setLine_of_not_assigns hl

/-- C4 witness: a concrete instantiation of the amended round trip. -/
theorem incar_set_get_roundtrip_witness :
    (WfTag (chars "ENCUT") ∧ WfValTok (renderPyVal (.str (chars "520.0"))))
    ∧ getValue (chars "ENCUT")
        (setValue (chars "ENCUT") (.str (chars "520.0"))
          [chars "SYSTEM = test", chars "ENCUT = 400 # old"])
      = some (parseValue (renderPyVal (.str (chars "520.0")))) :=
  ⟨⟨by decide, by decide⟩,
    (incar_set_get_roundtrip [chars "SYSTEM = test", chars "ENCUT = 400 # old"]
      (chars "ENCUT") (.str (chars "520.0")) (by decide) (by decide)).1⟩

/-- C5 counterexample: with duplicates `NSW =# c` and `NSW = 5`, the first
(topmost) assignment of `NSW` carries the empty-string value (its `=` is
immediately followed by a comment), but `get` skips it — its regex requires a
non-comment character after the equals sign — and returns the second
assignment's value `5`. -/
theorem incar_get_first_cex :
    assigns (chars "NSW") (chars "NSW =# c") = true
    ∧ assignedValue (chars "NSW") (chars "NSW =# c") = some (.str [])
    ∧ getValue (chars "NSW") [chars "NSW =# c", chars "NSW = 5"] = some (.int 5)
    ∧ some (IncarValue.int 5) ≠ some (IncarValue.str []) := by
  refine ⟨by decide, by decide, by decide, by decide⟩

/-- C5 (amended): for files with duplicate assignments of a well-formed key,
`get` before any edit returns the value of the first assignment whose text
after the equals sign does not begin with a comment marker (such degenerate
assignments are skipped); `set` rewrites all assignment lines so that every
remaining assignment of the key carries one and the same parsed value; and
`delete` removes every assignment line of the key while keeping all other
lines in their relative order. -/
theorem incar_duplicates (f : List (List Char)) (key : List Char) (v : PyVal)
    (hk : WfTag key) (hv : WfValTok (renderPyVal v)) :
    (∀ pre l post, f = pre ++ l :: post →
      (∀ l' ∈ pre, getLineValue key l' = none) →
      getLineValue key l ≠ none →
      getValue key f = assignedValue key l)
    ∧ (∀ l ∈ setValue key v f, assigns key l = true →
        Option.map parseValue (getLineValue key l) = some (parseValue (renderPyVal v)))
    ∧ (deleteTag key f).Sublist f
    ∧ (∀ l ∈ deleteTag key f, assigns key l = false)
    ∧ (∀ l ∈ f, assigns key l = false → l ∈ deleteTag key f) := by
  refine ⟨?_, ?_, ?_, ?_, ?_⟩
  · intro pre l post hsplit hpre hvis
    rw [getValue_first_visible f pre l post hsplit hpre hvis,
      assignedValue_eq_visible hvis]
  · exact setRendered_no_divergence f hk (fun c hc => (hv c hc).1)
  · exact List.filter_sublist f
  · intro l hl
    have := (List.mem_filter.mp hl).2
    simpa using this
  · intro l hl hna
    exact List.mem_filter.mpr ⟨hl, by simp [hna]⟩

/-! ## Claim theorems for the Watchdog -/

/-- C2: for a step whose control file enables the acceleration feature, if the
marker never appears within the timeout (first poll index with
`elapsed > timeout` is `timeout / 5 + 1`, one 5-second sleep per poll;
default timeout 300) while the child is still running, `monitor_and_restart`
deletes `ML_LMLFF` and `ML_MODE` from the control file (both absent
afterwards), creates the `CUSTOM` sentinel in the step directory, and invokes
`scancel` with the job id from `SLURM_JOB_ID`; a missing `SLURM_JOB_ID` is
fatal. -/
theorem watchdog_timeout_disables_ml (incar : List (List Char)) (exitPoll : Option Nat)
    (rc : Int) (markerPoll : Option Nat) (jobId : String) (timeout : Nat)
    (hml : mlEnabledOf incar = true)
    (hmarker : ∀ m, markerPoll = some m → timeoutPoll timeout < m)
    (hchild : ∀ e, exitPoll = some e → timeoutPoll timeout < e) :
    monitorAndRestart incar exitPoll rc markerPoll (some jobId) timeout
      = .cancelled (deleteTag mlModeTag (deleteTag mlLmlffTag incar)) true ["scancel", jobId]
    ∧ monitorAndRestart incar exitPoll rc markerPoll none timeout = .fatalNoJobId
    ∧ getValue mlLmlffTag (deleteTag mlModeTag (deleteTag mlLmlffTag incar)) = none
    ∧ getValue mlModeTag (deleteTag mlModeTag (deleteTag mlLmlffTag incar)) = none := by
  have hcancel : ∀ env : Option String,
      monitorAndRestart incar exitPoll rc markerPoll env timeout
        = match env with
          | none => .fatalNoJobId
          | some jid =>
            .cancelled (deleteTag mlModeTag (deleteTag mlLmlffTag incar)) true
              ["scancel", jid] := by
    intro env
    unfold monitorAndRestart
    rw [if_pos hml]
    cases hmp : markerPoll with
    | none =>
      cases hep : exitPoll with
      | none => rfl
      | some e =>
        have he : ¬ (e ≤ timeoutPoll timeout) := Nat.not_le.mpr (hchild e hep)
        simp [he]
    | some m =>
      have hm : ¬ (m ≤ timeoutPoll timeout) := Nat.not_le.mpr (hmarker m hmp)
      cases hep : exitPoll with
      | none => simp [hm]
      | some e =>
        have he : ¬ (e ≤ timeoutPoll timeout) := Nat.not_le.mpr (hchild e hep)
        simp [hm, he]
  refine ⟨hcancel (some jobId), hcancel none, ?_, ?_⟩
  · apply getValue_none_of_all
    intro l hl
    apply getLineValue_of_not_assigns
    have hmem := (List.mem_filter.mp ((List.mem_filter.mp hl).1)).2
    simpa using hmem
  · apply getValue_none_of_all
    intro l hl
    apply getLineValue_of_not_assigns
    have hmem := (List.mem_filter.mp hl).2
    simpa using hmem

/-- C2 witness: a concrete enabled control file, a child that neither exits
nor emits the marker, and the default 300-second timeout. -/
theorem watchdog_timeout_disables_ml_witness :
    mlEnabledOf [chars "ML_LMLFF = .TRUE.", chars "ML_MODE = run", chars "NSW = 5"] = true
    ∧ monitorAndRestart [chars "ML_LMLFF = .TRUE.", chars "ML_MODE = run", chars "NSW = 5"]
        none 0 none (some "4242") 300
      = .cancelled [chars "NSW = 5"] true ["scancel", "4242"]
    ∧ monitorAndRestart [chars "ML_LMLFF = .TRUE.", chars "ML_MODE = run", chars "NSW = 5"]
        none 0 none none 300 = .fatalNoJobId :=
  have h := watchdog_timeout_disables_ml
    [chars "ML_LMLFF = .TRUE.", chars "ML_MODE = run", chars "NSW = 5"]
    none 0 none "4242" 300 (by decide) (fun m hm => nomatch hm) (fun e he => nomatch he)
  ⟨by decide, h.1.trans (by decide), h.2.1⟩

/-! ## Claim theorems for the Batch Client -/

/-- C8 counterexample: with a zero exit and stdout `Submitted batch job abc`,
the acknowledgement pattern `Submitted batch job <integer>` is not matched
(the fourth token is not an integer), yet `submit_job` does not fail with
`SlurmSubmissionError`: the token check passes and `int(parts[3])` raises an
uncaught `ValueError`. -/
theorem submit_nonint_ack_cex :
    matchesAck (chars "Submitted batch job abc") = false
    ∧ submitJob true (chars "Submitted batch job abc") = (.valueErrorCrash, true)
    ∧ SubmitOutcome.valueErrorCrash ≠ SubmitOutcome.submissionError
    ∧ ∀ n, SubmitOutcome.valueErrorCrash ≠ SubmitOutcome.submitted n := by
  refine ⟨by decide, by decide, by decide, fun n h => nomatch h⟩

/-- C8 (amended): the temporary script file is removed on every exit path; a
non-zero exit of the submit command fails with `SlurmSubmissionError`, as does
stdout whose whitespace tokens fail the `Submitted batch job` check; when the
token check passes, an integer fourth token is returned as the job id, and a
non-integer fourth token raises an uncaught `ValueError` instead of
`SlurmSubmissionError`. -/
theorem submit_job_behavior (exitZero : Bool) (stdout : List Char) :
    (submitJob exitZero stdout).2 = true
    ∧ (exitZero = false → (submitJob exitZero stdout).1 = .submissionError)
    ∧ (exitZero = true → ackToken stdout = none →
        (submitJob exitZero stdout).1 = .submissionError)
    ∧ (∀ t n, exitZero = true → ackToken stdout = some t → pyIntTok t = some n →
        (submitJob exitZero stdout).1 = .submitted n)
    ∧ (∀ t, exitZero = true → ackToken stdout = some t → pyIntTok t = none →
        (submitJob exitZero stdout).1 = .valueErrorCrash) := by
  refine ⟨?_, ?_, ?_, ?_, ?_⟩
  · cases exitZero with
    | false => rfl
    | true =>
      cases hA : ackToken stdout with
      | none => simp [submitJob, hA]
      | some t => cases hI : pyIntTok t <;> simp [submitJob, hA, hI]
  · intro h
    subst h
    rfl
  · intro h hA
    subst h
    simp [submitJob, hA]
  · intro t n h hA hI
    subst h
    simp [submitJob, hA, hI]
  · intro t h hA hI
    subst h
    simp [submitJob, hA, hI]

/-- C8 witness: a well-formed acknowledgement yields the parsed job id and the
temporary file is removed. -/
theorem submit_job_behavior_witness :
    (ackToken (chars "Submitted batch job 42") = some (chars "42")
      ∧ pyIntTok (chars "42") = some 42)
    ∧ (submitJob true (chars "Submitted batch job 42")).1 = .submitted 42
    ∧ (submitJob true (chars "Submitted batch job 42")).2 = true :=
  ⟨⟨by decide, by decide⟩,
    (submit_job_behavior true (chars "Submitted batch job 42")).2.2.2.1
      (chars "42") 42 rfl (by decide) (by decide),
    (submit_job_behavior true (chars "Submitted batch job 42")).1⟩

/-! ## Claim theorems for output collection -/

theorem maxStep_spec :
    ∀ (steps : List StepDir) (s : StepDir), maxStep steps = some s →
      s ∈ steps ∧ ∀ t ∈ steps, t.idx ≤ s.idx := by
  have aux : ∀ (l : List StepDir) (b : StepDir),
      (l.foldl (fun b t => if b.idx < t.idx then t else b) b = b
        ∨ l.foldl (fun b t => if b.idx < t.idx then t else b) b ∈ l)
      ∧ b.idx ≤ (l.foldl (fun b t => if b.idx < t.idx then t else b) b).idx
      ∧ ∀ t ∈ l, t.idx ≤ (l.foldl (fun b t => if b.idx < t.idx then t else b) b).idx := by
    intro l
    induction l with
    | nil => exact fun b => ⟨Or.inl rfl, le_refl _, by simp⟩
    | cons t l ih =>
      intro b
      simp only [List.foldl_cons]
      obtain ⟨hmem, hle, hall⟩ := ih (if b.idx < t.idx then t else b)
      have hb : b.idx ≤ (if b.idx < t.idx then t else b).idx := by
        by_cases h : b.idx < t.idx
        · simp only [if_pos h]; omega
        · simp only [if_neg h]; omega
      have ht : t.idx ≤ (if b.idx < t.idx then t else b).idx := by
        by_cases h : b.idx < t.idx
        · simp only [if_pos h]; omega
        · simp only [if_neg h]; omega
      refine ⟨?_, le_trans hb hle, ?_⟩
      · rcases hmem with h | h
        · rw [h]
          by_cases hc : b.idx < t.idx
          · rw [if_pos hc]; exact Or.inr (by simp)
          · rw [if_neg hc]; exact Or.inl rfl
        · exact Or.inr (by simp [h])
      · intro u hu
        rcases List.mem_cons.mp hu with rfl | hu'
        · exact le_trans ht hle
        · exact hall u hu'
  intro steps s h
  cases steps with
  | nil => simp [maxStep] at h
  | cons a rest =>
    have hs : s = rest.foldl (fun b t => if b.idx < t.idx then t else b) a := by
      simpa [maxStep] using h.symm
    obtain ⟨hmem, hle, hall⟩ := aux rest a
    subst hs
    constructor
    · rcases hmem with h' | h'
      · rw [h']; simp
      · simp [h']
    · intro t ht
      rcases List.mem_cons.mp ht with rfl | ht'
      · exact hle
      · exact hall t ht'

theorem collectJob_ok {j : JobDir} (hp : Processable j)
    (ho : ∀ s, maxStep j.steps = some s → s.hasOutcar = true) :
    collectJob j = .ok (okActs j) := by
  obtain ⟨hdir, hposcar, hnum, hsteps⟩ := hp
  obtain ⟨num, hnum'⟩ : ∃ num, jobNum j.name = some num := by
    cases hx : jobNum j.name with
    | none => exact absurd hx hnum
    | some num => exact ⟨num, rfl⟩
  obtain ⟨s0, hs0⟩ : ∃ s0, maxStep j.steps = some s0 := by
    cases hx : j.steps with
    | nil => exact absurd hx hsteps
    | cons a rest => exact ⟨_, rfl⟩
  unfold collectJob okActs
  rw [hdir, hnum', hs0, hposcar]
  simp [ho s0 hs0]

theorem collectOutputs_ok {jobs : List JobDir} (hp : ∀ j ∈ jobs, Processable j)
    (ho : ∀ j ∈ jobs, ∀ s, maxStep j.steps = some s → s.hasOutcar = true) :
    collectOutputs jobs = .ok (jobs.map okActs).flatten := by
  induction jobs with
  | nil => rfl
  | cons j rest ih =>
    have h1 := collectJob_ok (hp j (by simp)) (ho j (by simp))
    have h2 := ih (fun j' hj' => hp j' (by simp [hj'])) (fun j' hj' => ho j' (by simp [hj']))
    simp only [collectOutputs, h1, h2, List.map_cons, List.flatten_cons]

theorem collectOutputs_error :
    ∀ (pre : List JobDir) (j : JobDir) (post jobs : List JobDir),
      jobs = pre ++ j :: post →
      (∀ j' ∈ pre, Processable j') →
      (∀ j' ∈ pre, ∀ s, maxStep j'.steps = some s → s.hasOutcar = true) →
      Processable j →
      (∀ s, maxStep j.steps = some s → s.hasOutcar = false) →
      ∃ e, collectOutputs jobs = .error e := by
  intro pre
  induction pre with
  | nil =>
    intro j post jobs hsplit _ _ hpj hbad
    subst hsplit
    obtain ⟨hdir, hposcar, hnum, hsteps⟩ := hpj
    obtain ⟨num, hnum'⟩ : ∃ num, jobNum j.name = some num := by
      cases hx : jobNum j.name with
      | none => exact absurd hx hnum
      | some num => exact ⟨num, rfl⟩
    obtain ⟨s0, hs0⟩ : ∃ s0, maxStep j.steps = some s0 := by
      cases hx : j.steps with
      | nil => exact absurd hx hsteps
      | cons a rest => exact ⟨_, rfl⟩
    have hjob : collectJob j = .error ("OUTCAR missing in " ++ String.mk j.name) := by
      unfold collectJob
      rw [hdir, hnum', hs0, hposcar]
      simp [hbad s0 hs0]
    exact ⟨"OUTCAR missing in " ++ String.mk j.name,
      by simp only [List.nil_append, collectOutputs, hjob]⟩
  | cons p pre' ih =>
    intro j post jobs hsplit hpre hpreok hpj hbad
    subst hsplit
    have hpj2 := collectJob_ok (hpre p (by simp)) (hpreok p (by simp))
    obtain ⟨e, he⟩ := ih j post (pre' ++ j :: post) rfl
      (fun a ha => hpre a (by simp [ha])) (fun a ha => hpreok a (by simp [ha])) hpj hbad
    have he' : collectOutputs (pre'.append (j :: post)) = Except.error e := he
    exact ⟨e, by simp only [List.cons_append, collectOutputs, hpj2, he']⟩

/-- C3 counterexample: a job whose step 1 has a final output structure but
whose step 2 does not.  The claim's selection rule ("highest step index that
has a final output structure") picks step 1 and copies its `CONTCAR` and
`OUTCAR`, but the code picks step 2 unconditionally, skips the `CONTCAR` copy
and takes `OUTCAR` from step 2. -/
theorem collect_max_step_cex :
    collectOutputs [⟨chars "job_7", true, true, [⟨1, true, true⟩, ⟨2, false, true⟩]⟩]
      = .ok [.poscar (chars "7"), .outcar (chars "7") 2]
    ∧ collectOutputsClaimed [⟨chars "job_7", true, true, [⟨1, true, true⟩, ⟨2, false, true⟩]⟩]
      = .ok [.poscar (chars "7"), .contcar (chars "7") 1, .outcar (chars "7") 1]
    ∧ collectOutputs [⟨chars "job_7", true, true, [⟨1, true, true⟩, ⟨2, false, true⟩]⟩]
      ≠ collectOutputsClaimed [⟨chars "job_7", true, true, [⟨1, true, true⟩, ⟨2, false, true⟩]⟩] := by
  refine ⟨by decide, by decide, by decide⟩

/-- C3 (amended): for every per-structure job directory, the collector
selects the step of highest index among the existing step directories —
whether or not it has a final output structure — and copies the original
input structure, that step's `CONTCAR` when present, and that step's
`OUTCAR`; a missing `OUTCAR` in the selected step aborts collection with
`FileNotFoundError`, while a missing `CONTCAR` only skips that one copy and
collection continues. -/
theorem collect_highest_step (jobs : List JobDir) (hp : ∀ j ∈ jobs, Processable j) :
    (∀ (steps : List StepDir) (s : StepDir), maxStep steps = some s →
        s ∈ steps ∧ ∀ t ∈ steps, t.idx ≤ s.idx)
    ∧ ((∀ j ∈ jobs, ∀ s, maxStep j.steps = some s → s.hasOutcar = true) →
        collectOutputs jobs = .ok (jobs.map okActs).flatten)
    ∧ (∀ pre j post, jobs = pre ++ j :: post →
        (∀ j' ∈ pre, ∀ s, maxStep j'.steps = some s → s.hasOutcar = true) →
        (∀ s, maxStep j.steps = some s → s.hasOutcar = false) →
        ∃ e, collectOutputs jobs = .error e) := by
  refine ⟨maxStep_spec, collectOutputs_ok hp, ?_⟩
  intro pre j post hsplit hpreok hbad
  exact collectOutputs_error pre j post jobs hsplit
    (fun j' hj' => hp j' (by simp [hsplit, hj']))
    hpreok (hp j (by simp [hsplit])) hbad

/-- C3 witness: two processable jobs whose selected (highest) steps both have
`OUTCAR`, the second lacking `CONTCAR`: collection succeeds and skips only
that copy. -/
theorem collect_highest_step_witness :
    (∀ j ∈ [(⟨chars "job_1", true, true, [⟨1, true, true⟩, ⟨2, true, true⟩]⟩ : JobDir),
            ⟨chars "job_2", true, true, [⟨1, true, true⟩, ⟨2, false, true⟩]⟩], Processable j)
    ∧ collectOutputs [⟨chars "job_1", true, true, [⟨1, true, true⟩, ⟨2, true, true⟩]⟩,
        ⟨chars "job_2", true, true, [⟨1, true, true⟩, ⟨2, false, true⟩]⟩]
      = .ok [.poscar (chars "1"), .contcar (chars "1") 2, .outcar (chars "1") 2,
             .poscar (chars "2"), .outcar (chars "2") 2] :=
  ⟨by decide,
    ((collect_highest_step
      [⟨chars "job_1", true, true, [⟨1, true, true⟩, ⟨2, true, true⟩]⟩,
       ⟨chars "job_2", true, true, [⟨1, true, true⟩, ⟨2, false, true⟩]⟩]
      (by decide)).2.1 (by decide)).trans (by decide)⟩

/-! ## Claim theorems for the orchestrator's completeness check -/

/-- C10: the Task-completeness check returns `False` when the status file
does not exist, raises `RuntimeError` when the file exists but lacks the
`jobs` key, and returns `True` vacuously for an empty `jobs` mapping — and in
the orchestrator loop an empty mapping therefore counts as a fully completed
task: with a terminal job state the iteration collects outputs (over zero job
directories) and falls through to the generator. -/
theorem check_completed_empty_jobs (mlu : Int) (newId : String) :
    checkAllCompleted none = .ok false
    ∧ (∀ d : JobStatusDoc, d.jobs = none →
        checkAllCompleted (some d) = .error "status.json has no jobs key")
    ∧ checkAllCompleted (some ⟨some []⟩) = .ok true
    ∧ (∀ (st : SchedState) (g : Int) (sid : String), st.generation = some g →
        st.taskConfigExists = true → st.slurmId = some sid →
        st.jobState ≠ "PENDING" → st.jobState ≠ "RUNNING" →
        st.statusDoc = some ⟨some []⟩ →
        (schedIter mlu newId st).2 = [.collect g, .runGenerator])
    ∧ collectOutputs [] = .ok [] := by
  refine ⟨rfl, ?_, rfl, ?_, rfl⟩
  · intro d hd
    simp [checkAllCompleted, hd]
  · intro st g sid hgen hcfg hsid hp hr hdoc
    have hjob : (st.jobState = "PENDING" ∨ st.jobState = "RUNNING") = False := by
      simp [hp, hr]
    unfold schedIter
    rw [hgen, hcfg, hsid, hdoc]
    simp [hjob, checkAllCompleted, checkEntries]

/-- C10 witness: the checker and an orchestrator iteration at concrete
states. -/
theorem check_completed_empty_jobs_witness :
    checkAllCompleted (some ⟨none⟩) = .error "status.json has no jobs key"
    ∧ (schedIter 0 "id1" ⟨some 3, true, some "99", "COMPLETED", some ⟨some []⟩, []⟩).2
        = [.collect 3, .runGenerator] :=
  ⟨(check_completed_empty_jobs 0 "id1").2.1 ⟨none⟩ rfl,
    (check_completed_empty_jobs 0 "id1").2.2.2.1
      ⟨some 3, true, some "99", "COMPLETED", some ⟨some []⟩, []⟩ 3 "99"
      rfl rfl rfl (by decide) (by decide) rfl⟩

/-! ## Claim theorems for the Job Runner main loop -/

/-- C1 (evaluation at the failing input): the claim says a `FileNotFoundError`
records status `failed` for the structure.  The code's handler stores the
error text and sets status `error` — but `main` then unconditionally
overwrites the status with `success` (`task.py` line 451), so the structure
ends recorded as `success` with a non-empty `error` field, both structures
are processed, and no `failed` (nor surviving `error`) status ever appears.
An `ExecutionError` yields `success` plus a non-empty `warning`, as the claim
states. -/
theorem runner_filemissing_overwritten :
    runnerMain (fun _ _ => .fileMissing "CONTCAR missing in step_2")
        (fun _ => "t0") (fun n => "/tasks/" ++ n) ⟨false, false, false⟩ []
        ["POSCAR_1", "POSCAR_2"]
      = { flags := ⟨false, false, false⟩,
          status := [("POSCAR_1", ⟨"success", "t0", "/tasks/POSCAR_1", "CONTCAR missing in step_2", ""⟩),
                     ("POSCAR_2", ⟨"success", "t0", "/tasks/POSCAR_2", "CONTCAR missing in step_2", ""⟩)],
          saves := [[("POSCAR_1", ⟨"success", "t0", "/tasks/POSCAR_1", "CONTCAR missing in step_2", ""⟩),
                     ("POSCAR_2", freshRecord)],
                    [("POSCAR_1", ⟨"success", "t0", "/tasks/POSCAR_1", "CONTCAR missing in step_2", ""⟩),
                     ("POSCAR_2", ⟨"success", "t0", "/tasks/POSCAR_2", "CONTCAR missing in step_2", ""⟩)]],
          ran := [("POSCAR_1", ⟨false, false, false⟩), ("POSCAR_2", ⟨false, false, false⟩)] }
    ∧ runnerMain (fun _ _ => .vaspError "step 1 exited with code 1")
        (fun _ => "t0") (fun n => "/tasks/" ++ n) ⟨false, false, false⟩ [] ["POSCAR_1"]
      = { flags := ⟨false, false, false⟩,
          status := [("POSCAR_1", ⟨"success", "t0", "/tasks/POSCAR_1", "", "step 1 exited with code 1"⟩)],
          saves := [[("POSCAR_1", ⟨"success", "t0", "/tasks/POSCAR_1", "", "step 1 exited with code 1"⟩)]],
          ran := [("POSCAR_1", ⟨false, false, false⟩)] } := by
  refine ⟨by decide, by decide⟩

/-! ## Claim theorems for orchestrator idempotency -/

theorem schedIter_config_exists (mlu : Int) (newId : String) (st : SchedState)
    (hcfg : st.taskConfigExists = true) :
    (∀ a ∈ (schedIter mlu newId st).2, isPrepareAction a = false)
    ∧ (schedIter mlu newId st).2.countP (fun a => isSubmitAction a) ≤ 1 := by
  unfold schedIter
  cases hg : st.generation with
  | none => simp [isPrepareAction, isSubmitAction]
  | some gen =>
    rw [hcfg]
    cases hs : st.slurmId with
    | none => simp [isPrepareAction, isSubmitAction, List.countP_cons]
    | some sid =>
      by_cases hj : (st.jobState = "PENDING" ∨ st.jobState = "RUNNING")
      · simp [hj, isPrepareAction, isSubmitAction]
      · cases hc : checkAllCompleted st.statusDoc with
        | error e => simp [hj, isPrepareAction, isSubmitAction]
        | ok b =>
          cases b <;> simp [hj, isPrepareAction, isSubmitAction, List.countP_cons]

/-- C6: invoking the orchestrator's iteration twice on a generation that has
no task yet creates the task configuration exactly once: the first iteration
performs the single `prepareTask` action and persists the config file, and the
second iteration — observing the config file — performs no `prepareTask` at
all, so the two iterations together create at most one task directory and
perform at most one batch submission. -/
theorem sched_task_created_once (mlu : Int) (id1 id2 : String) (st : SchedState) (g : Int)
    (hgen : st.generation = some g) (hcfg : st.taskConfigExists = false)
    (hpos : st.poscars ≠ []) :
    (schedIter mlu id1 st).1.taskConfigExists = true
    ∧ (schedIter mlu id1 st).2.countP (fun a => isPrepareAction a) = 1
    ∧ (∀ a ∈ (schedIter mlu id2 (schedIter mlu id1 st).1).2, isPrepareAction a = false)
    ∧ ((schedIter mlu id1 st).2 ++ (schedIter mlu id2 (schedIter mlu id1 st).1).2).countP
        (fun a => isSubmitAction a) ≤ 1 := by
  obtain ⟨p, ps, hps⟩ : ∃ p ps, st.poscars = p :: ps := by
    cases hx : st.poscars with
    | nil => exact absurd hx hpos
    | cons p ps => exact ⟨p, ps, rfl⟩
  have h1 : schedIter mlu id1 st
      = ({ st with taskConfigExists := true },
         [.prepareTask g (decide (g < mlu)) (decide (g = mlu)) (decide (mlu < g))]) := by
    unfold schedIter
    rw [hgen, hcfg, hps]
    rfl
  have h2 := schedIter_config_exists mlu id2 ({ st with taskConfigExists := true }) rfl
  refine ⟨by rw [h1], by rw [h1]; simp [List.countP_cons, isPrepareAction], ?_, ?_⟩
  · intro a ha
    rw [h1] at ha
    exact h2.1 a ha
  · rw [List.countP_append, h1]
    have hz : ([SchedAction.prepareTask g (decide (g < mlu)) (decide (g = mlu))
        (decide (mlu < g))].countP fun a => isSubmitAction a) = 0 := by
      simp [List.countP_cons, isSubmitAction]
    rw [hz]
    simpa using h2.2

/-- C6 witness: a fresh generation with candidate structures present. -/
theorem sched_task_created_once_witness :
    ((⟨some 5, false, none, "", none, ["POSCAR_1"]⟩ : SchedState).generation = some 5
      ∧ (⟨some 5, false, none, "", none, ["POSCAR_1"]⟩ : SchedState).taskConfigExists = false
      ∧ (⟨some 5, false, none, "", none, ["POSCAR_1"]⟩ : SchedState).poscars ≠ [])
    ∧ (schedIter 3 "a" (⟨some 5, false, none, "", none, ["POSCAR_1"]⟩ : SchedState)).1.taskConfigExists
        = true
    ∧ (schedIter 3 "a" (⟨some 5, false, none, "", none, ["POSCAR_1"]⟩ : SchedState)).2.countP
        (fun a => isPrepareAction a) = 1
    ∧ (∀ a ∈ (schedIter 3 "b"
          (schedIter 3 "a" (⟨some 5, false, none, "", none, ["POSCAR_1"]⟩ : SchedState)).1).2,
        isPrepareAction a = false) :=
  have h := sched_task_created_once 3 "a" "b"
    (⟨some 5, false, none, "", none, ["POSCAR_1"]⟩ : SchedState) 5 rfl rfl (by decide)
  ⟨⟨rfl, rfl, by decide⟩, h.1, h.2.1, h.2.2.1⟩

/-! ## Helper lemmas about the runner's jobs mapping and loop -/

theorem lookupJob_updateJob_ne (st : StatusMap) (k k' : String) (f : JobRecord → JobRecord)
    (h : k' ≠ k) : lookupJob (updateJob st k f) k' = lookupJob st k' := by
  induction st with
  | nil => rfl
  | cons e rest ih =>
    obtain ⟨a, r⟩ := e
    by_cases ha : a = k
    · subst ha
      simp only [updateJob, if_pos rfl, lookupJob]
      rw [if_neg (fun he => h he.symm), if_neg (fun he => h he.symm)]
    · simp only [updateJob, if_neg ha, lookupJob]
      by_cases ha' : a = k'
      · rw [if_pos ha', if_pos ha']
      · rw [if_neg ha', if_neg ha']
        exact ih

theorem lookupJob_append_some {st : StatusMap} {k : String} {r : JobRecord}
    (h : lookupJob st k = some r) (tail : StatusMap) :
    lookupJob (st ++ tail) k = some r := by
  induction st with
  | nil => simp [lookupJob] at h
  | cons e rest ih =>
    obtain ⟨a, v⟩ := e
    simp only [lookupJob, List.cons_append] at h ⊢
    by_cases ha : a = k
    · rw [if_pos ha] at h ⊢; exact h
    · rw [if_neg ha] at h ⊢; exact ih h

theorem lookupJob_append_single (st : StatusMap) (k nm : String) (v : JobRecord) :
    lookupJob (st ++ [(nm, v)]) k
      = match lookupJob st k with
        | some r => some r
        | none => if nm = k then some v else none := by
  induction st with
  | nil => rfl
  | cons e rest ih =>
    obtain ⟨a, w⟩ := e
    simp only [lookupJob, List.cons_append]
    by_cases ha : a = k
    · rw [if_pos ha, if_pos ha]
    · rw [if_neg ha, if_neg ha]
      exact ih

theorem lookupJob_initJobs_some (ps : List String) :
    ∀ (st : StatusMap) (k : String) (r : JobRecord), lookupJob st k = some r →
      lookupJob (initJobs ps st) k = some r := by
  induction ps with
  | nil => intro st k r h; exact h
  | cons nm rest ih =>
    intro st k r h
    show lookupJob
      (initJobs rest (if (lookupJob st nm).isSome then st else st ++ [(nm, freshRecord)])) k
        = some r
    by_cases hnm : (lookupJob st nm).isSome
    · rw [if_pos hnm]; exact ih st k r h
    · rw [if_neg hnm]; exact ih _ k r (lookupJob_append_some h _)

theorem recStatus_initJobs (ps : List String) :
    ∀ (st : StatusMap) (k : String), recStatus (initJobs ps st) k = recStatus st k := by
  induction ps with
  | nil => intro st k; rfl
  | cons nm rest ih =>
    intro st k
    show recStatus
      (initJobs rest (if (lookupJob st nm).isSome then st else st ++ [(nm, freshRecord)])) k
        = recStatus st k
    by_cases hnm : (lookupJob st nm).isSome
    · rw [if_pos hnm]; exact ih st k
    · rw [if_neg hnm, ih _ k]
      unfold recStatus
      rw [lookupJob_append_single]
      cases hk : lookupJob st k with
      | some r => rfl
      | none =>
        by_cases hn : nm = k
        · rw [if_pos hn]; rfl
        · rw [if_neg hn]

theorem processStructure_skip {outcome : String → MLFlags → JobOutcome} {tstamp : Nat → String}
    {workdirOf : String → String} {idx : Nat} {name : String} {s : RunnerState}
    (h : recStatus s.status name = "success") :
    processStructure outcome tstamp workdirOf idx name s = s := by
  unfold recStatus at h
  simp only [processStructure]
  rw [if_pos h]

theorem processStructure_shape {outcome : String → MLFlags → JobOutcome} {tstamp : Nat → String}
    {workdirOf : String → String} {idx : Nat} {name : String} {s : RunnerState}
    (h : ¬ recStatus s.status name = "success") :
    ∃ st3 : StatusMap,
      processStructure outcome tstamp workdirOf idx name s
        = { flags := if s.flags.refit then { s.flags with refit := false, predict := true }
              else s.flags,
            status := st3, saves := s.saves ++ [st3], ran := s.ran ++ [(name, s.flags)] }
      ∧ ∀ k, k ≠ name → lookupJob st3 k = lookupJob s.status k := by
  unfold recStatus at h
  simp only [processStructure]
  rw [if_neg h]
  refine ⟨_, rfl, ?_⟩
  intro k hk
  have hne : ∀ (st : StatusMap) (f : JobRecord → JobRecord),
      lookupJob (updateJob st name f) k = lookupJob st k :=
    fun st f => lookupJob_updateJob_ne st name k f hk
  cases outcome name s.flags <;> simp only [hne]

theorem recStatus_processStructure_ne {outcome : String → MLFlags → JobOutcome}
    {tstamp : Nat → String} {workdirOf : String → String} {idx : Nat} {name : String}
    {s : RunnerState} {k : String} (hk : k ≠ name) :
    recStatus (processStructure outcome tstamp workdirOf idx name s).status k
      = recStatus s.status k := by
  by_cases h : recStatus s.status name = "success"
  · rw [processStructure_skip h]
  · obtain ⟨st3, heq, hlk⟩ := processStructure_shape h
    rw [heq]
    unfold recStatus
    rw [hlk k hk]

theorem runFold_preserves_success (outcome : String → MLFlags → JobOutcome)
    (tstamp : Nat → String) (workdirOf : String → String) (pairs : List (Nat × String)) :
    ∀ (s : RunnerState) (name : String) (r : JobRecord),
      lookupJob s.status name = some r → r.status = "success" →
      lookupJob (runFold outcome tstamp workdirOf pairs s).status name = some r := by
  induction pairs with
  | nil => intro s name r h _; exact h
  | cons p rest ih =>
    intro s name r h hsucc
    have hstep : runFold outcome tstamp workdirOf (p :: rest) s
        = runFold outcome tstamp workdirOf rest
            (processStructure outcome tstamp workdirOf p.1 p.2 s) := rfl
    rw [hstep]
    by_cases hnm : name = p.2
    · subst hnm
      have hskip : processStructure outcome tstamp workdirOf p.1 p.2 s = s :=
        processStructure_skip (by unfold recStatus; rw [h]; exact hsucc)
      rw [hskip]
      exact ih s p.2 r h hsucc
    · by_cases hproc : recStatus s.status p.2 = "success"
      · rw [processStructure_skip hproc]
        exact ih s name r h hsucc
      · obtain ⟨st3, heq, hlk⟩ := processStructure_shape hproc
        refine ih _ name r ?_ hsucc
        rw [heq]
        simpa [hlk name hnm] using h

theorem runFold_ran_filter (outcome : String → MLFlags → JobOutcome) (tstamp : Nat → String)
    (workdirOf : String → String) :
    ∀ (pairs : List (Nat × String)), (pairs.map Prod.snd).Nodup →
      ∀ s : RunnerState,
        ((runFold outcome tstamp workdirOf pairs s).ran).map Prod.fst
          = s.ran.map Prod.fst
            ++ (pairs.map Prod.snd).filter (fun n => !(recStatus s.status n == "success")) := by
  intro pairs
  induction pairs with
  | nil => intro _ s; simp [runFold]
  | cons p rest ih =>
    intro hnd s
    have hnotin : p.2 ∉ rest.map Prod.snd := by
      have := hnd
      simp only [List.map_cons, List.nodup_cons] at this
      exact this.1
    have hnd' : (rest.map Prod.snd).Nodup := by
      have := hnd
      simp only [List.map_cons, List.nodup_cons] at this
      exact this.2
    have hstep : runFold outcome tstamp workdirOf (p :: rest) s
        = runFold outcome tstamp workdirOf rest
            (processStructure outcome tstamp workdirOf p.1 p.2 s) := rfl
    rw [hstep]
    by_cases hs : recStatus s.status p.2 = "success"
    · rw [processStructure_skip hs, ih hnd' s]
      simp [List.filter_cons, hs]
    · obtain ⟨st3, heq, hlk⟩ := processStructure_shape hs
      rw [ih hnd' _]
      have hfilter :
          (rest.map Prod.snd).filter
              (fun n => !(recStatus (processStructure outcome tstamp workdirOf p.1 p.2 s).status n
                == "success"))
            = (rest.map Prod.snd).filter (fun n => !(recStatus s.status n == "success")) := by
        apply List.filter_congr
        intro n hn
        have hne : n ≠ p.2 := fun he => hnotin (he ▸ hn)
        rw [recStatus_processStructure_ne hne]
      rw [hfilter, heq]
      simp [List.filter_cons, hs]

theorem runFold_saves_len (outcome : String → MLFlags → JobOutcome) (tstamp : Nat → String)
    (workdirOf : String → String) :
    ∀ (pairs : List (Nat × String)) (s : RunnerState),
      (runFold outcome tstamp workdirOf pairs s).saves.length + s.ran.length
        = (runFold outcome tstamp workdirOf pairs s).ran.length + s.saves.length := by
  intro pairs
  induction pairs with
  | nil =>
    intro s
    show s.saves.length + s.ran.length = s.ran.length + s.saves.length
    omega
  | cons p rest ih =>
    intro s
    have hstep : runFold outcome tstamp workdirOf (p :: rest) s
        = runFold outcome tstamp workdirOf rest
            (processStructure outcome tstamp workdirOf p.1 p.2 s) := rfl
    rw [hstep]
    by_cases hs : recStatus s.status p.2 = "success"
    · rw [processStructure_skip hs]
      exact ih s
    · obtain ⟨st3, heq, _⟩ := processStructure_shape hs
      have hgen := ih (processStructure outcome tstamp workdirOf p.1 p.2 s)
      rw [heq] at hgen
      rw [heq]
      simp only [List.length_append, List.length_cons, List.length_nil] at hgen ⊢
      omega

theorem runFold_last_save (outcome : String → MLFlags → JobOutcome) (tstamp : Nat → String)
    (workdirOf : String → String) :
    ∀ (pairs : List (Nat × String)) (s : RunnerState),
      (s.saves.getLast? = some s.status ∨ s.saves = []) →
      ((runFold outcome tstamp workdirOf pairs s).saves.getLast?
          = some (runFold outcome tstamp workdirOf pairs s).status
        ∨ (runFold outcome tstamp workdirOf pairs s).saves = []) := by
  intro pairs
  induction pairs with
  | nil => intro s h; exact h
  | cons p rest ih =>
    intro s h
    have hstep : runFold outcome tstamp workdirOf (p :: rest) s
        = runFold outcome tstamp workdirOf rest
            (processStructure outcome tstamp workdirOf p.1 p.2 s) := rfl
    rw [hstep]
    by_cases hs : recStatus s.status p.2 = "success"
    · rw [processStructure_skip hs]
      exact ih s h
    · obtain ⟨st3, heq, _⟩ := processStructure_shape hs
      refine ih _ ?_
      rw [heq]
      exact Or.inl (by simp)

theorem runFold_refit_inv (outcome : String → MLFlags → JobOutcome) (tstamp : Nat → String)
    (workdirOf : String → String) (fl0 : MLFlags) (h0 : fl0.refit = true) :
    ∀ (pairs : List (Nat × String)) (s : RunnerState),
      RefitInv fl0 s → RefitInv fl0 (runFold outcome tstamp workdirOf pairs s) := by
  intro pairs
  induction pairs with
  | nil => intro s h; exact h
  | cons p rest ih =>
    intro s h
    have hstep : runFold outcome tstamp workdirOf (p :: rest) s
        = runFold outcome tstamp workdirOf rest
            (processStructure outcome tstamp workdirOf p.1 p.2 s) := rfl
    rw [hstep]
    by_cases hs : recStatus s.status p.2 = "success"
    · rw [processStructure_skip hs]
      exact ih s h
    · obtain ⟨st3, heq, _⟩ := processStructure_shape hs
      refine ih _ ?_
      rw [heq]
      rcases h with ⟨hran, hfl⟩ | ⟨⟨q, qrest, hran, hq, hrest⟩, hrefit, hpredict⟩
      · refine Or.inr ⟨⟨(p.2, s.flags), [], by rw [hran]; rfl, by rw [hfl], by simp⟩, ?_, ?_⟩
        · rw [hfl]
          simp [h0]
        · rw [hfl]
          simp [h0]
      · refine Or.inr ⟨⟨q, qrest ++ [(p.2, s.flags)], by rw [hran]; rfl, hq, ?_⟩, ?_, ?_⟩
        · intro x hx
          rcases List.mem_append.mp hx with hx' | hx'
          · exact hrest x hx'
          · have : x = (p.2, s.flags) := by simpa using hx'
            rw [this]
            exact ⟨hrefit, hpredict⟩
        · simp [hrefit]
        · simp [hrefit, hpredict]

theorem RefitInv_ranGood {fl0 : MLFlags} {s : RunnerState} (h : RefitInv fl0 s) :
    RanGood fl0 s.ran := by
  rcases h with ⟨hran, _⟩ | ⟨⟨q, qrest, hran, hq, hrest⟩, _, _⟩
  · rw [hran]; trivial
  · rw [hran]; exact ⟨hq, hrest⟩

/-- C7: restarted with a status file in which some structures are `success`,
the runner leaves every such entry untouched, constructs and runs a `VaspJob`
exactly for the structures whose recorded status is not `success` (in order),
and persists the status file once per processed structure, the last snapshot
being the final status map. -/
theorem runner_resume_behavior (outcome : String → MLFlags → JobOutcome)
    (tstamp : Nat → String) (workdirOf : String → String) (flags0 : MLFlags)
    (status0 : StatusMap) (poscars : List String) (hnd : poscars.Nodup) :
    (∀ (name : String) (r : JobRecord), lookupJob status0 name = some r →
        r.status = "success" →
        lookupJob (runnerMain outcome tstamp workdirOf flags0 status0 poscars).status name
          = some r)
    ∧ ((runnerMain outcome tstamp workdirOf flags0 status0 poscars).ran.map Prod.fst
        = poscars.filter (fun n => !(recStatus status0 n == "success")))
    ∧ (runnerMain outcome tstamp workdirOf flags0 status0 poscars).saves.length
        = (runnerMain outcome tstamp workdirOf flags0 status0 poscars).ran.length
    ∧ ((runnerMain outcome tstamp workdirOf flags0 status0 poscars).ran ≠ [] →
        (runnerMain outcome tstamp workdirOf flags0 status0 poscars).saves.getLast?
          = some (runnerMain outcome tstamp workdirOf flags0 status0 poscars).status) := by
  have hmain : runnerMain outcome tstamp workdirOf flags0 status0 poscars
      = runFold outcome tstamp workdirOf poscars.enum
          { flags := flags0, status := initJobs poscars status0, saves := [], ran := [] } := rfl
  have hsnd : poscars.enum.map Prod.snd = poscars := List.enum_map_snd poscars
  have hlen : (runnerMain outcome tstamp workdirOf flags0 status0 poscars).saves.length
      = (runnerMain outcome tstamp workdirOf flags0 status0 poscars).ran.length := by
    rw [hmain]
    have := runFold_saves_len outcome tstamp workdirOf poscars.enum
      { flags := flags0, status := initJobs poscars status0, saves := [], ran := [] }
    simpa using this
  refine ⟨?_, ?_, hlen, ?_⟩
  · intro name r h hsucc
    rw [hmain]
    exact runFold_preserves_success outcome tstamp workdirOf poscars.enum _ name r
      (lookupJob_initJobs_some poscars status0 name r h) hsucc
  · rw [hmain]
    have hnd' : (poscars.enum.map Prod.snd).Nodup := by rw [hsnd]; exact hnd
    have := runFold_ran_filter outcome tstamp workdirOf poscars.enum hnd'
      { flags := flags0, status := initJobs poscars status0, saves := [], ran := [] }
    rw [hsnd] at this
    rw [this]
    simp only [List.map_nil, List.nil_append]
    apply List.filter_congr
    intro n _
    rw [recStatus_initJobs]
  · intro hne
    rw [hmain]
    have hinv := runFold_last_save outcome tstamp workdirOf poscars.enum
      { flags := flags0, status := initJobs poscars status0, saves := [], ran := [] }
      (Or.inr rfl)
    rcases hinv with h | h
    · exact h
    · exfalso
      rw [hmain] at hlen hne
      rw [h] at hlen
      simp only [List.length_nil] at hlen
      exact hne (List.eq_nil_of_length_eq_zero hlen.symm)

/-- C7 witness: resuming after POSCAR_1 succeeded re-processes only POSCAR_2
and POSCAR_3 and keeps the old entry verbatim. -/
theorem runner_resume_behavior_witness :
    (["POSCAR_1", "POSCAR_2", "POSCAR_3"] : List String).Nodup
    ∧ lookupJob (runnerMain (fun _ _ => .ok) (fun _ => "t1") (fun n => "/w/" ++ n)
        ⟨false, false, false⟩ [("POSCAR_1", ⟨"success", "t0", "/w/POSCAR_1", "", ""⟩)]
        ["POSCAR_1", "POSCAR_2", "POSCAR_3"]).status "POSCAR_1"
      = some ⟨"success", "t0", "/w/POSCAR_1", "", ""⟩
    ∧ (runnerMain (fun _ _ => .ok) (fun _ => "t1") (fun n => "/w/" ++ n)
        ⟨false, false, false⟩ [("POSCAR_1", ⟨"success", "t0", "/w/POSCAR_1", "", ""⟩)]
        ["POSCAR_1", "POSCAR_2", "POSCAR_3"]).ran.map Prod.fst
      = ["POSCAR_2", "POSCAR_3"] :=
  have h := runner_resume_behavior (fun _ _ => .ok) (fun _ => "t1") (fun n => "/w/" ++ n)
    ⟨false, false, false⟩ [("POSCAR_1", ⟨"success", "t0", "/w/POSCAR_1", "", ""⟩)]
    ["POSCAR_1", "POSCAR_2", "POSCAR_3"] (by decide)
  ⟨by decide,
    h.1 "POSCAR_1" ⟨"success", "t0", "/w/POSCAR_1", "", ""⟩ (by decide) rfl,
    (h.2.1).trans (by decide)⟩

/-- C9: when the runner starts with the `ml_refit` flag enabled, only the
first structure it actually processes is given the initial flags (refit
mode); every later structure of the same invocation is run with `ml_refit`
off and `ml_predict` on, even though the task configuration requested refit
throughout. -/
theorem refit_only_first_structure (outcome : String → MLFlags → JobOutcome)
    (tstamp : Nat → String) (workdirOf : String → String) (flags0 : MLFlags)
    (status0 : StatusMap) (poscars : List String) (hrefit : flags0.refit = true) :
    RanGood flags0 (runnerMain outcome tstamp workdirOf flags0 status0 poscars).ran := by
  have hmain : runnerMain outcome tstamp workdirOf flags0 status0 poscars
      = runFold outcome tstamp workdirOf poscars.enum
          { flags := flags0, status := initJobs poscars status0, saves := [], ran := [] } := rfl
  rw [hmain]
  exact RefitInv_ranGood
    (runFold_refit_inv outcome tstamp workdirOf flags0 hrefit poscars.enum _
      (Or.inl ⟨rfl, rfl⟩))

/-- C9 witness: two structures under an initially enabled refit flag: the
first processed carries refit, the second predict. -/
theorem refit_only_first_structure_witness :
    (MLFlags.mk false true false).refit = true
    ∧ (runnerMain (fun _ _ => .ok) (fun _ => "t") (fun n => n) ⟨false, true, false⟩ []
        ["POSCAR_1", "POSCAR_2"]).ran
      = [("POSCAR_1", ⟨false, true, false⟩), ("POSCAR_2", ⟨false, false, true⟩)]
    ∧ RanGood ⟨false, true, false⟩
        (runnerMain (fun _ _ => .ok) (fun _ => "t") (fun n => n) ⟨false, true, false⟩ []
          ["POSCAR_1", "POSCAR_2"]).ran :=
  ⟨rfl, by decide,
    refit_only_first_structure (fun _ _ => .ok) (fun _ => "t") (fun n => n)
      ⟨false, true, false⟩ [] ["POSCAR_1", "POSCAR_2"] rfl⟩

/-- C5 witness: a file with three duplicate `NSW` assignments whose first one
is degenerate (`=` immediately followed by a comment marker): `get` skips it
and returns the second assignment's value. -/
theorem incar_duplicates_witness :
    (WfTag (chars "NSW") ∧ WfValTok (renderPyVal (.int 7)))
    ∧ getValue (chars "NSW") [chars "NSW =! old", chars "NSW = 5 # x", chars "NSW = 9"]
        = assignedValue (chars "NSW") (chars "NSW = 5 # x") :=
  ⟨⟨by decide, by decide⟩,
    (incar_duplicates [chars "NSW =! old", chars "NSW = 5 # x", chars "NSW = 9"]
      (chars "NSW") (.int 7) (by decide) (by decide)).1
      [chars "NSW =! old"] (chars "NSW = 5 # x") [chars "NSW = 9"] rfl
      (by decide) (by decide)⟩

end CalVaspML
